import Mathlib

/-!
Verification of the core algorithms of the `evse_load_balancer` integration:
the `PowerAllocator` (power_allocator.py) and the `OptimisedLoadBalancer`
(balancers/optimised_load_balancer.py).  Python dictionaries over the `Phase`
enum are embedded as association lists, Python floats as exact rationals,
Python `int` values as `ℤ`, and code that can raise (`KeyError`,
`ZeroDivisionError`, `StatisticsError`, attribute errors on `None`) is
embedded in an exception monad `PyEx`.
-/

namespace EvseLB

/-- The Phase enum from const.py: L1, L2, L3. -/
inductive Phase where
  | l1
  | l2
  | l3
deriving DecidableEq, Repr, Fintype

/-- Exception monad for Python code that can raise (KeyError etc.). -/
abbrev PyEx (α : Type) : Type := Except Unit α

/-- Python dict lookup `d.get(k)`: first binding of the key in the association list. -/
def dget {κ α : Type} [DecidableEq κ] : List (κ × α) → κ → Option α
  | [], _ => none
  | (k, v) :: t, k' => if k = k' then some v else dget t k'

/-- Python dict subscript `d[k]`, raising KeyError when the key is absent. -/
def dgetE {κ α : Type} [DecidableEq κ] (d : List (κ × α)) (k : κ) : PyEx α :=
  match dget d k with
  | none => .error ()
  | some v => .ok v

/-- Python dict assignment `d[k] = v`: overwrite the first binding, else append. -/
def dset {κ α : Type} [DecidableEq κ] : List (κ × α) → κ → α → List (κ × α)
  | [], k, v => [(k, v)]
  | (k0, v0) :: t, k, v => if k0 = k then (k0, v) :: t else (k0, v0) :: dset t k v

/-- Python `k in d`. -/
def dhasKey {κ α : Type} [DecidableEq κ] (d : List (κ × α)) (k : κ) : Bool :=
  (dget d k).isSome

/-- Python `d.values()`. -/
def dvals {κ α : Type} : List (κ × α) → List α :=
  List.map Prod.snd

/-- Python truthiness of an optional dict: `None` and the empty dict are falsy. -/
def truthyD {κ α : Type} : Option (List (κ × α)) → Option (List (κ × α))
  | none => none
  | some [] => none
  | some d => some d

/-- Python `int(x)` on a float: truncation toward zero. -/
def py_int (q : ℚ) : ℤ :=
  if q < 0 then -(Int.floor (-q)) else Int.floor q

/-- Charger identifiers (opaque ids, strings in the source). -/
abbrev CId : Type := ℕ

/-- Python `min(xs)`, raising ValueError on an empty sequence. -/
def list_min : List ℤ → PyEx ℤ
  | [] => .error ()
  | x :: xs => .ok (xs.foldl min x)

/-- Sum of the second components of an association list. -/
def sumSnd (l : List (CId × ℤ)) : ℤ :=
  (l.map Prod.snd).sum

/-- A dict over phases with integer amp values, as used by the allocator. -/
abbrev PD : Type := List (Phase × ℤ)

/-- The charger adapter interface consumed by the allocator (chargers/charger.py),
with the three observations `update_allocation` uses, fixed for one cycle. -/
structure Charger where
  current_limit : Option PD
  can_charge : Bool
  has_synced_phase_limits : Bool
deriving DecidableEq, Repr

/-- ChargerState from power_allocator.py: per-charger allocation bookkeeping. -/
structure ChargerState where
  charger : Charger
  requested_current : Option PD
  last_set_current : Option PD
  last_update_time : ℤ
  manual_override_detected : Bool
deriving DecidableEq, Repr

/-- The allocator's charger registry `self._chargers`, keyed by charger id. -/
abbrev States : Type := List (CId × ChargerState)

/-- The lazy generator in detect_manual_override: scans the reported limits and
compares each phase against last_set_current, raising KeyError when the phase
is missing from last_set_current, short-circuiting on the first difference. -/
def any_current_differs (last : PD) : List (Phase × ℤ) → PyEx Bool
  | [] => .ok false
  | (p, v) :: rest =>
    match dget last p with
    | none => .error ()
    | some w => if v ≠ w then .ok true else any_current_differs last rest

/-- ChargerState.detect_manual_override: when the reported limit differs from
what was last set, the reported limit becomes the new requested_current. -/
def detect_manual_override (s : ChargerState) : PyEx (ChargerState × Bool) :=
  match truthyD s.charger.current_limit, truthyD s.last_set_current with
  | some cur, some last => do
    let b ← any_current_differs last cur
    if b then
      .ok ({ s with requested_current := some cur, manual_override_detected := true }, true)
    else
      .ok (s, false)
  | _, _ => .ok (s, false)

/-- PowerAllocator._active_chargers: the chargers that can take a charge. -/
def active_chargers (l : States) : States :=
  l.filter (fun e => e.2.charger.can_charge)

/-- The manual-override pass at the start of update_allocation, applied to
every active charger in registry order. -/
def detect_pass : States → PyEx States
  | [] => .ok []
  | (id, s) :: rest => do
    let s' ←
      if s.charger.can_charge then
        (detect_manual_override s).map Prod.fst
      else
        pure s
    let rest' ← detect_pass rest
    .ok ((id, s') :: rest')

/-- The allocation result map being built: charger id to new per-phase limits. -/
abbrev Result : Type := List (CId × PD)

/-- The collection loop of _distribute_cuts: current settings of the active
chargers on one phase; chargers with a falsy limit dict are skipped, and a
missing phase raises KeyError. -/
def collect_phase_currents (phase : Phase) : States → PyEx (List (CId × ℤ))
  | [] => .ok []
  | (id, s) :: rest =>
    match truthyD s.charger.current_limit with
    | none => collect_phase_currents phase rest
    | some d =>
      match dget d phase with
      | none => .error ()
      | some c => do
        let r ← collect_phase_currents phase rest
        .ok ((id, c) :: r)

/-- The proportional cut of _distribute_cuts: `floor(deficit * (current / total))`. -/
def cut_for (deficit total current : ℤ) : ℤ :=
  Int.floor ((deficit : ℚ) * ((current : ℚ) / (total : ℚ)))

/-- The write-back loop of _distribute_cuts: each collected charger gets its
entry (created as a copy of its reported limits) updated at the phase with
`max(0, current + cut)`. -/
def apply_cuts (states : States) (phase : Phase) (deficit total : ℤ) :
    List (CId × ℤ) → Result → PyEx Result
  | [], res => .ok res
  | (id, c) :: rest, res =>
    match dget states id with
    | none => .error ()
    | some st =>
      match st.charger.current_limit with
      | none => .error ()
      | some cs =>
        let res1 := match dget res id with
          | none => dset res id cs
          | some _ => res
        match dget cs phase with
        | none => .error ()
        | some cp =>
          match dget res1 id with
          | none => .error ()
          | some e =>
            apply_cuts states phase deficit total rest
              (dset res1 id (dset e phase (max 0 (cp + cut_for deficit total c))))

/-- PowerAllocator._distribute_cuts. -/
def distribute_cuts (states : States) (phase : Phase) (deficit : ℤ) (res : Result) :
    PyEx Result := do
  let l ← collect_phase_currents phase (active_chargers states)
  let total := sumSnd l
  if total = 0 then .ok res
  else apply_cuts states phase deficit total l res

/-- The collection loop of _distribute_increases: potential = requested − current
for active chargers that want more than they currently have; chargers with a
falsy limit or requested dict are skipped; missing phases raise KeyError. -/
def collect_potentials (phase : Phase) : States → PyEx (List (CId × ℤ))
  | [] => .ok []
  | (id, s) :: rest =>
    match truthyD s.charger.current_limit, truthyD s.requested_current with
    | some d, some rq =>
      (match dget d phase with
      | none => .error ()
      | some c =>
        match dget rq phase with
        | none => .error ()
        | some r =>
          if r > c then do
            let rest' ← collect_potentials phase rest
            .ok ((id, r - c) :: rest')
          else collect_potentials phase rest)
    | _, _ => collect_potentials phase rest

/-- The increase of _distribute_increases before truncation:
`min(surplus * (potential / total), potential)` as exact rational arithmetic. -/
def increase_for (surplus total potential : ℤ) : ℚ :=
  min ((surplus : ℚ) * ((potential : ℚ) / (total : ℚ))) (potential : ℚ)

/-- The write-back loop of _distribute_increases: each collected charger's entry
is updated at the phase with `current + int(increase)`. -/
def apply_increases (states : States) (phase : Phase) (surplus total : ℤ) :
    List (CId × ℤ) → Result → PyEx Result
  | [], res => .ok res
  | (id, pot) :: rest, res =>
    match dget states id with
    | none => .error ()
    | some st =>
      match st.charger.current_limit with
      | none => .error ()
      | some cs =>
        let res1 := match dget res id with
          | none => dset res id cs
          | some _ => res
        match dget cs phase with
        | none => .error ()
        | some cp =>
          match dget res1 id with
          | none => .error ()
          | some e =>
            apply_increases states phase surplus total rest
              (dset res1 id (dset e phase (cp + py_int (increase_for surplus total pot))))

/-- PowerAllocator._distribute_increases. -/
def distribute_increases (states : States) (phase : Phase) (surplus : ℤ) (res : Result) :
    PyEx Result := do
  let l ← collect_potentials phase (active_chargers states)
  let total := sumSnd l
  if total = 0 then .ok res
  else apply_increases states phase surplus total l res

/-- PowerAllocator._allocate_current: phases with a deficit get cuts, phases
with a surplus get increases, zero phases are untouched. -/
def allocate_current (states : States) : List (Phase × ℤ) → Result → PyEx Result
  | [], res => .ok res
  | (phase, a) :: rest, res => do
    let res' ←
      if a < 0 then distribute_cuts states phase a res
      else if a > 0 then distribute_increases states phase a res
      else .ok res
    allocate_current states rest res'

/-- The lazy generator of the non-synced has_changes check in update_allocation:
compares each new limit with the currently reported one, raising KeyError on a
phase missing from the reported limits, short-circuiting on a difference. -/
def any_limit_differs (cs : PD) : List (Phase × ℤ) → PyEx Bool
  | [] => .ok false
  | (p, v) :: rest =>
    match dget cs p with
    | none => .error ()
    | some w => if v ≠ w then .ok true else any_limit_differs cs rest

/-- The has_changes test of update_allocation: for synced-phase chargers only a
change in the minimum across phases counts, otherwise any per-phase change. -/
def has_changes_for (s : ChargerState) (cs : PD) (nl : PD) : PyEx Bool :=
  if s.charger.has_synced_phase_limits then do
    let mc ← list_min (dvals cs)
    let mn ← match nl with
      | [] => pure mc
      | _ => list_min (dvals nl)
    .ok (decide (mn ≠ mc))
  else any_limit_differs cs nl

/-- The final loop of update_allocation: chargers whose allocation is a real
change are put into the result map and their state updated (last_set_current,
last_update_time, cleared override flag); chargers with a falsy reported limit
are skipped. -/
def apply_results (now : ℚ) : Result → States → PyEx (Result × States)
  | [], states => .ok ([], states)
  | (id, nl) :: rest, states =>
    match dget states id with
    | none => .error ()
    | some st =>
      match truthyD st.charger.current_limit with
      | none => apply_results now rest states
      | some cs => do
        let hc ← has_changes_for st cs nl
        if hc then do
          let st' := { st with
            last_set_current := some nl
            last_update_time := py_int now
            manual_override_detected := false }
          let (r, states') ← apply_results now rest (dset states id st')
          .ok ((id, nl) :: r, states')
        else apply_results now rest states

/-- PowerAllocator.update_allocation: override detection, per-phase allocation,
and the change-only result pass; returns the result map and the new registry. -/
def update_allocation (states : States) (avail : List (Phase × ℤ)) (now : ℚ) :
    PyEx (Result × States) :=
  if active_chargers states = [] then .ok ([], states)
  else do
    let s1 ← detect_pass states
    let alloc ← allocate_current s1 avail []
    apply_results now alloc s1

/-- Default value of the `now` parameter of update_allocation: in the source it
is the expression `time()` in the def line, evaluated once when the module is
loaded, so every call that omits `now` receives this same captured constant. -/
def update_allocation_default (moduleLoadTime : ℚ) (states : States)
    (avail : List (Phase × ℤ)) : PyEx (Result × States) :=
  update_allocation states avail moduleLoadTime

/-- Constructor parameters of OptimisedLoadBalancer. -/
structure OLBParams where
  recovery_window : ℚ
  trip_risk_threshold : ℚ
  risk_decay_per_second : ℚ
  recovery_risk_threshold : ℚ
  recovery_std : ℚ
deriving DecidableEq, Repr

/-- The constructor default values: 900.0, 60.0, 1.0, 60 * 0.4, 2.5. -/
def defaultOLBParams : OLBParams :=
  { recovery_window := 900
    trip_risk_threshold := 60
    risk_decay_per_second := 1
    recovery_risk_threshold := 24
    recovery_std := 5 / 2 }

/-- Mutable state of OptimisedLoadBalancer.  The per-phase dicts are created
with every phase as key, so they are total functions of the phase; the dict
last_computed_availability starts empty. -/
structure BState where
  recovery_current_history : Phase → List ℚ
  recovery_risk_history : Phase → List ℚ
  cumulative_trip_risk : Phase → ℚ
  last_adjustment_time : Phase → ℚ
  last_compute : ℚ
  last_computed_availability : List (Phase × ℚ)

/-- State of a freshly constructed OptimisedLoadBalancer. -/
def initBState : BState :=
  { recovery_current_history := fun _ => []
    recovery_risk_history := fun _ => []
    cumulative_trip_risk := fun _ => 0
    last_adjustment_time := fun _ => 0
    last_compute := 0
    last_computed_availability := [] }

/-- Pointwise update of a per-phase map. -/
def pupd {α : Type} (f : Phase → α) (p : Phase) (v : α) : Phase → α :=
  fun q => if q = p then v else f q

/-- Append to a deque with a maxlen bound: the oldest entries are dropped when
the bound is exceeded. -/
def dequeAppend (maxlen : ℕ) (xs : List ℚ) (x : ℚ) : List ℚ :=
  let ys := xs ++ [x]
  if ys.length > maxlen then ys.drop (ys.length - maxlen) else ys

/-- OptimisedLoadBalancer.calculate_trip_risk: the step function from the
overcurrent percentage to a risk-accrual rate. -/
def calculate_trip_risk (P : OLBParams) (overcurrent_percentage : ℚ) : ℚ :=
  if overcurrent_percentage ≤ 13 / 100 then P.trip_risk_threshold / 60
  else if overcurrent_percentage ≤ 40 / 100 then P.trip_risk_threshold / 30
  else if overcurrent_percentage ≤ 1 then P.trip_risk_threshold / 10
  else P.trip_risk_threshold

/-- OptimisedLoadBalancer.is_stable_recovery: a nonempty history whose sum is
at most the recovery risk threshold. -/
def is_stable_recovery (P : OLBParams) (history : List ℚ) : Prop :=
  match history with
  | [] => False
  | _ => history.sum ≤ P.recovery_risk_threshold

instance (P : OLBParams) (h : List ℚ) : Decidable (is_stable_recovery P h) := by
  unfold is_stable_recovery
  cases h with
  | nil => exact inferInstanceAs (Decidable False)
  | cons a t => exact inferInstanceAs (Decidable (_ ≤ _))

/-- Population variance of a list of samples (statistics.pstdev squared). -/
def pvariance (xs : List ℚ) : ℚ :=
  let n : ℚ := xs.length
  let m := xs.sum / n
  ((xs.map (fun x => (x - m) ^ 2)).sum) / n

/-- The is_consistent test `pstdev(history) < recovery_std if history else inf`:
for a nonempty history, the population standard deviation is below the bound
iff the bound is positive and the variance is below its square; an empty
history compares infinity against the bound, which is false. -/
def is_consistent (P : OLBParams) (xs : List ℚ) : Prop :=
  match xs with
  | [] => False
  | _ => 0 < P.recovery_std ∧ pvariance xs < P.recovery_std ^ 2

instance (P : OLBParams) (xs : List ℚ) : Decidable (is_consistent P xs) := by
  unfold is_consistent
  cases xs with
  | nil => exact inferInstanceAs (Decidable False)
  | cons a t => exact inferInstanceAs (Decidable (_ ∧ _))

/-- Insertion into a sorted list of rationals. -/
def insertQ (x : ℚ) : List ℚ → List ℚ
  | [] => [x]
  | y :: ys => if x ≤ y then x :: y :: ys else y :: insertQ x ys

/-- Insertion sort of rationals, for the median. -/
def sortQ : List ℚ → List ℚ
  | [] => []
  | x :: xs => insertQ x (sortQ xs)

/-- Python statistics.median: middle element of the sorted data for odd length,
mean of the two middle elements for even length, StatisticsError when empty. -/
def medianE (xs : List ℚ) : PyEx ℚ :=
  let s := sortQ xs
  let n := s.length
  if n = 0 then .error ()
  else if n % 2 = 1 then .ok (s.getD (n / 2) 0)
  else .ok ((s.getD (n / 2 - 1) 0 + s.getD (n / 2) 0) / 2)

/-- Accumulator of the first pass of compute_availability: the new limits dict
under construction, the phases ready for recovery, and the mutated state. -/
structure FPAcc where
  newLimits : List (Phase × ℚ)
  ready : List Phase
  st : BState

/-- First pass of compute_availability over the available_currents items:
overcurrent phases accrue risk and cut when the threshold is crossed, other
phases decay risk, buffer samples and test the recovery criteria.  The
max_limits lookup raises KeyError on a missing phase and the overcurrent
percentage raises ZeroDivisionError when the max limit is zero. -/
def first_pass (P : OLBParams) (elapsed now : ℚ) (maxl : List (Phase × ℚ)) :
    List (Phase × ℚ) → FPAcc → PyEx FPAcc
  | [], acc => .ok acc
  | (phase, avail) :: rest, acc =>
    match dget maxl phase with
    | none => .error ()
    | some max_limit =>
      let st := acc.st
      let new_target := (dget st.last_computed_availability phase).getD avail
      let maxlen := (py_int P.recovery_window).toNat
      if avail < 0 then
        if max_limit = 0 then .error ()
        else
          let pct := |avail| / max_limit
          let risk_increase := calculate_trip_risk P pct * elapsed
          let risk1 := st.cumulative_trip_risk phase + risk_increase
          let rh1 := dequeAppend maxlen (st.recovery_risk_history phase) risk_increase
          if risk1 ≥ P.trip_risk_threshold then
            first_pass P elapsed now maxl rest
              { newLimits := dset acc.newLimits phase avail
                ready := acc.ready
                st := { st with
                  cumulative_trip_risk := pupd st.cumulative_trip_risk phase 0
                  recovery_risk_history := pupd st.recovery_risk_history phase []
                  recovery_current_history := pupd st.recovery_current_history phase []
                  last_adjustment_time := pupd st.last_adjustment_time phase now } }
          else
            first_pass P elapsed now maxl rest
              { newLimits := dset acc.newLimits phase new_target
                ready := acc.ready
                st := { st with
                  cumulative_trip_risk := pupd st.cumulative_trip_risk phase risk1
                  recovery_risk_history := pupd st.recovery_risk_history phase rh1 } }
      else
        let risk_decay := P.risk_decay_per_second * elapsed
        let risk1 := max 0 (st.cumulative_trip_risk phase - risk_decay)
        let ch1 := dequeAppend maxlen (st.recovery_current_history phase) avail
        let rh1 := dequeAppend maxlen (st.recovery_risk_history phase) (-risk_decay)
        let recovery_time_elapsed := now - st.last_adjustment_time phase ≥ P.recovery_window
        let readyHere := recovery_time_elapsed ∧ is_stable_recovery P rh1 ∧ is_consistent P ch1
        first_pass P elapsed now maxl rest
          { newLimits := dset acc.newLimits phase new_target
            ready := if readyHere then phase :: acc.ready else acc.ready
            st := { st with
              cumulative_trip_risk := pupd st.cumulative_trip_risk phase risk1
              recovery_current_history := pupd st.recovery_current_history phase ch1
              recovery_risk_history := pupd st.recovery_risk_history phase rh1 } }

/-- Second pass of compute_availability, entered when some phase is ready for
recovery: every phase of the input whose last adjustment is at least 80% of
the recovery window ago gets the median of its recovery history as new limit
(StatisticsError when that history is empty) and its histories cleared. -/
def second_pass (P : OLBParams) (now : ℚ) :
    List (Phase × ℚ) → List (Phase × ℚ) × BState → PyEx (List (Phase × ℚ) × BState)
  | [], acc => .ok acc
  | (phase, _) :: rest, (nl, st) =>
    if now - st.last_adjustment_time phase ≥ P.recovery_window * (4 / 5) then do
      let safe_value ← medianE (st.recovery_current_history phase)
      second_pass P now rest
        (dset nl phase safe_value,
          { st with
            last_adjustment_time := pupd st.last_adjustment_time phase now
            recovery_current_history := pupd st.recovery_current_history phase []
            recovery_risk_history := pupd st.recovery_risk_history phase [] })
    else second_pass P now rest (nl, st)

/-- OptimisedLoadBalancer.compute_availability: elapsed time from the shared
last_compute timestamp, the two passes, and the bookkeeping of the computed
availability. -/
def compute_availability (P : OLBParams) (st : BState) (avail maxl : List (Phase × ℚ))
    (now : ℚ) : PyEx (List (Phase × ℚ) × BState) := do
  let acc ← first_pass P (now - st.last_compute) now maxl avail
    { newLimits := [], ready := [], st := st }
  let (nl, st1) ←
    if acc.ready = [] then pure (acc.newLimits, acc.st)
    else second_pass P now avail (acc.newLimits, acc.st)
  .ok (nl, { st1 with last_computed_availability := nl, last_compute := now })

/-- Default value of the `now` parameter of compute_availability: the `time()`
expression in the def line, evaluated once at module load. -/
def compute_availability_default (moduleLoadTime : ℚ) (P : OLBParams) (st : BState)
    (avail maxl : List (Phase × ℚ)) : PyEx (List (Phase × ℚ) × BState) :=
  compute_availability P st avail maxl moduleLoadTime

/-- Elapsed time as computed at the top of compute_availability. -/
def elapsed_for (st : BState) (now : ℚ) : ℚ :=
  now - st.last_compute

/-- One call of a balancer trace: the available currents, max limits and time. -/
structure BCall where
  avail : List (Phase × ℚ)
  maxl : List (Phase × ℚ)
  now : ℚ

/-- Run a sequence of compute_availability calls from a state. -/
def run_balancer (P : OLBParams) : BState → List BCall → PyEx BState
  | st, [] => .ok st
  | st, c :: rest => do
    let (_, st') ← compute_availability P st c.avail c.maxl c.now
    run_balancer P st' rest

/-- Chronological call times: each call is no earlier than the time before it. -/
def chronological : ℚ → List BCall → Prop
  | _, [] => True
  | t, c :: rest => t ≤ c.now ∧ chronological c.now rest

def chronologicalDec : ∀ (t : ℚ) (l : List BCall), Decidable (chronological t l)
  | _, [] => by unfold chronological; exact inferInstanceAs (Decidable True)
  | t, c :: rest => by
    unfold chronological
    have := chronologicalDec c.now rest
    exact inferInstanceAs (Decidable (_ ∧ _))

instance (t : ℚ) (l : List BCall) : Decidable (chronological t l) :=
  chronologicalDec t l

/-- Final balancer state of a sequence of calls on a fresh balancer (the
fresh state when some call raised). -/
def run_state (P : OLBParams) (calls : List BCall) : BState :=
  match run_balancer P initBState calls with
  | .ok s => s
  | .error _ => initBState

/-- A charger at 10 A on phase L1 with matching requested and last-set values. -/
def c1Charger : ChargerState :=
  { charger := { current_limit := some [(Phase.l1, 10)], can_charge := true,
                 has_synced_phase_limits := false }
    requested_current := some [(Phase.l1, 10)]
    last_set_current := some [(Phase.l1, 10)]
    last_update_time := 0
    manual_override_detected := false }

/-- History of three calls on a fresh balancer: settle phase L1 at 20 A, cut
it to -100 at now = 100 (risk crosses the threshold), then buffer headroom
samples at now = 200. -/
def c2Calls : List BCall :=
  [{ avail := [(Phase.l1, 20), (Phase.l2, 5)],
     maxl := [(Phase.l1, 32), (Phase.l2, 32)], now := 50 },
   { avail := [(Phase.l1, -100), (Phase.l2, 5)],
     maxl := [(Phase.l1, 32), (Phase.l2, 32)], now := 100 },
   { avail := [(Phase.l1, 10), (Phase.l2, 5)],
     maxl := [(Phase.l1, 32), (Phase.l2, 32)], now := 200 }]

/-- The balancer state after the three calls of c2Calls. -/
def c2St : BState := run_state defaultOLBParams c2Calls

/-- A balancer state whose phase L1 settled at 5 A with buffered recovery
samples of 7 A, used to exercise the recovery raise. -/
def c2wSt : BState :=
  { recovery_current_history := fun _ => [7]
    recovery_risk_history := fun _ => [-100]
    cumulative_trip_risk := fun _ => 0
    last_adjustment_time := fun _ => 0
    last_compute := 0
    last_computed_availability := [(Phase.l1, 5)] }

/-- A charger at 16 A on phase L1 with matching requested and last-set values. -/
def c3Charger : ChargerState :=
  { charger := { current_limit := some [(Phase.l1, 16)], can_charge := true,
                 has_synced_phase_limits := false }
    requested_current := some [(Phase.l1, 16)]
    last_set_current := some [(Phase.l1, 16)]
    last_update_time := 0
    manual_override_detected := false }

/-- Result of a second identical update_allocation call with no intervening
change to the charger's reported state (no hardware write applied). -/
def c3_run2 : PyEx Result :=
  match update_allocation [(1, c3Charger)] [(Phase.l1, -5)] 0 with
  | .error e => .error e
  | .ok (_, s1) => (update_allocation s1 [(Phase.l1, -5)] 0).map Prod.fst

/-- A charger at 16 A on phase L1, used for the default-timestamp claim. -/
def c10Charger : ChargerState :=
  { charger := { current_limit := some [(Phase.l1, 16)], can_charge := true,
                 has_synced_phase_limits := false }
    requested_current := some [(Phase.l1, 16)]
    last_set_current := some [(Phase.l1, 16)]
    last_update_time := 0
    manual_override_detected := false }

/-- The state of c10Charger after a -5 A cut stamped at module-load time 5. -/
def c10After : ChargerState :=
  { charger := { current_limit := some [(Phase.l1, 16)], can_charge := true,
                 has_synced_phase_limits := false }
    requested_current := some [(Phase.l1, 16)]
    last_set_current := some [(Phase.l1, 11)]
    last_update_time := 5
    manual_override_detected := false }

/-- A dict that binds every phase. -/
def full {α : Type} (d : List (Phase × α)) : Prop :=
  ∀ p : Phase, dhasKey d p = true

instance {α : Type} (d : List (Phase × α)) : Decidable (full d) :=
  inferInstanceAs (Decidable (∀ p : Phase, dhasKey d p = true))

/-- An optional dict that, when present, binds every phase. -/
def fullOpt {α : Type} (o : Option (List (Phase × α))) : Prop :=
  ∀ d, o = some d → full d

instance {α : Type} (o : Option (List (Phase × α))) : Decidable (fullOpt o) :=
  match o with
  | none => .isTrue (by intro d h; cases h)
  | some d0 =>
    if h : full d0 then .isTrue (by intro d hd; cases hd; exact h)
    else .isFalse (by intro hc; exact h (hc d0 rfl))

/-- A charger state whose reported limit, last-set and requested dicts bind
every phase whenever they are present. -/
def full_state (st : ChargerState) : Prop :=
  fullOpt st.charger.current_limit ∧ fullOpt st.last_set_current ∧
    fullOpt st.requested_current

instance (st : ChargerState) : Decidable (full_state st) :=
  inferInstanceAs (Decidable (_ ∧ _ ∧ _))

/-- Value bound used for the recovery-allocation claim: every limits entry
recorded for the charger stays at most r on phase p. -/
def val_bounded (id : CId) (p : Phase) (r : ℤ) (res : Result) : Prop :=
  ∀ nl v, (id, nl) ∈ res → dget nl p = some v → v ≤ r

/-- A charger reporting a limit only for phase L1. -/
def c9Charger : ChargerState :=
  { charger := { current_limit := some [(Phase.l1, 16)], can_charge := true,
                 has_synced_phase_limits := false }
    requested_current := some [(Phase.l1, 16)]
    last_set_current := some [(Phase.l1, 16)]
    last_update_time := 0
    manual_override_detected := false }

/-- A charger reporting limits for all three phases. -/
def c9Full : ChargerState :=
  { charger := { current_limit := some [(Phase.l1, 10), (Phase.l2, 10), (Phase.l3, 10)],
                 can_charge := true, has_synced_phase_limits := false }
    requested_current := some [(Phase.l1, 16), (Phase.l2, 16), (Phase.l3, 16)]
    last_set_current := some [(Phase.l1, 10), (Phase.l2, 10), (Phase.l3, 10)]
    last_update_time := 0
    manual_override_detected := false }

/-- A connected charger whose adapter currently reports no current limit. -/
def c9NoLimit : ChargerState :=
  { charger := { current_limit := none, can_charge := true,
                 has_synced_phase_limits := false }
    requested_current := none
    last_set_current := none
    last_update_time := 0
    manual_override_detected := false }

/-- A charger cut to 7 A on phase L1 that originally requested 16 A. -/
def c4Charger : ChargerState :=
  { charger := { current_limit := some [(Phase.l1, 7)], can_charge := true,
                 has_synced_phase_limits := false }
    requested_current := some [(Phase.l1, 16)]
    last_set_current := some [(Phase.l1, 7)]
    last_update_time := 0
    manual_override_detected := false }

instance exceptDecEq {ε α : Type} [DecidableEq ε] [DecidableEq α] :
    DecidableEq (Except ε α) := fun a b =>
  match a, b with
  | .ok x, .ok y =>
    if h : x = y then .isTrue (by rw [h])
    else .isFalse (by intro he; cases he; exact h rfl)
  | .error x, .error y =>
    if h : x = y then .isTrue (by rw [h])
    else .isFalse (by intro he; cases he; exact h rfl)
  | .ok _, .error _ => .isFalse (by intro h; cases h)
  | .error _, .ok _ => .isFalse (by intro h; cases h)

/-! Basic lemmas about the dict embedding. -/

@[simp] theorem phase_ne_a : Phase.l1 ≠ Phase.l2 := by decide

@[simp] theorem phase_ne_b : Phase.l1 ≠ Phase.l3 := by decide

@[simp] theorem phase_ne_c : Phase.l2 ≠ Phase.l1 := by decide

@[simp] theorem phase_ne_d : Phase.l2 ≠ Phase.l3 := by decide

@[simp] theorem phase_ne_e : Phase.l3 ≠ Phase.l1 := by decide

@[simp] theorem phase_ne_f : Phase.l3 ≠ Phase.l2 := by decide

theorem dget_dset_self {κ α : Type} [DecidableEq κ] (d : List (κ × α)) (k : κ) (v : α) :
    dget (dset d k v) k = some v := by
  induction d with
  | nil => simp [dget, dset]
  | cons h t ih =>
    by_cases hk : h.1 = k
    · simp [dset, hk, dget]
    · simp only [dset]
      rw [if_neg hk]
      simp only [dget]
      rw [if_neg hk]
      exact ih

theorem dget_dset_ne {κ α : Type} [DecidableEq κ] (d : List (κ × α)) (k k' : κ) (v : α)
    (h : k ≠ k') : dget (dset d k v) k' = dget d k' := by
  induction d with
  | nil => simp [dget, dset, h]
  | cons hd t ih =>
    by_cases hk : hd.1 = k
    · simp only [dset]
      rw [if_pos hk]
      simp only [dget]
      rw [if_neg (hk ▸ h), if_neg (hk ▸ h)]
    · simp only [dset]
      rw [if_neg hk]
      simp only [dget]
      by_cases hk' : hd.1 = k'
      · rw [if_pos hk', if_pos hk']
      · rw [if_neg hk', if_neg hk']
        exact ih

theorem dget_mem {κ α : Type} [DecidableEq κ] {d : List (κ × α)} {k : κ} {v : α}
    (h : dget d k = some v) : (k, v) ∈ d := by
  induction d with
  | nil => simp [dget] at h
  | cons hd t ih =>
    simp only [dget] at h
    by_cases hk : hd.1 = k
    · rw [if_pos hk] at h
      obtain ⟨k0, v0⟩ := hd
      cases h
      cases hk
      exact List.mem_cons_self _ _
    · rw [if_neg hk] at h
      exact List.mem_cons_of_mem _ (ih h)

theorem mem_dset {κ α : Type} [DecidableEq κ] {d : List (κ × α)} {k k' : κ} {v v' : α}
    (h : (k', v') ∈ dset d k v) : (k', v') ∈ d ∨ (k' = k ∧ v' = v) := by
  induction d with
  | nil => simp [dset] at h; right; exact ⟨h.1, h.2⟩
  | cons hd t ih =>
    simp only [dset] at h
    by_cases hk : hd.1 = k
    · rw [if_pos hk] at h
      cases h with
      | head => right; constructor <;> simp_all
      | tail _ hm => left; exact List.mem_cons_of_mem _ hm
    · rw [if_neg hk] at h
      cases h with
      | head => left; exact List.mem_cons_self _ _
      | tail _ hm =>
        cases ih hm with
        | inl h2 => left; exact List.mem_cons_of_mem _ h2
        | inr h2 => right; exact h2

theorem dget_of_mem_nodup {κ α : Type} [DecidableEq κ] {d : List (κ × α)} {k : κ} {v : α}
    (hm : (k, v) ∈ d) (hn : (d.map Prod.fst).Nodup) : dget d k = some v := by
  induction d with
  | nil => simp at hm
  | cons hd t ih =>
    simp only [List.map_cons, List.nodup_cons] at hn
    cases hm with
    | head => simp [dget]
    | tail _ hm2 =>
      have hne : hd.1 ≠ k := by
        intro he
        exact hn.1 (he ▸ (List.mem_map.mpr ⟨(k, v), hm2, rfl⟩))
      simp only [dget]
      rw [if_neg hne]
      exact ih hm2 hn.2

theorem truthyD_eq_some {κ α : Type} {o : Option (List (κ × α))} {d : List (κ × α)}
    (h : truthyD o = some d) : o = some d := by
  match o with
  | none => simp [truthyD] at h
  | some [] => simp [truthyD] at h
  | some (x :: t) => simpa [truthyD] using h

theorem truthyD_ne_nil {κ α : Type} {o : Option (List (κ × α))} {d : List (κ × α)}
    (h : truthyD o = some d) : d ≠ [] := by
  match o with
  | none => simp [truthyD] at h
  | some [] => simp [truthyD] at h
  | some (x :: t) =>
    simp only [truthyD] at h
    cases h
    simp

/-- Unfolding of compute_availability into its two passes. -/
theorem compute_availability_eq (P : OLBParams) (st : BState)
    (avail maxl : List (Phase × ℚ)) (now : ℚ) :
    compute_availability P st avail maxl now =
      match first_pass P (now - st.last_compute) now maxl avail
          { newLimits := [], ready := [], st := st } with
      | .error e => .error e
      | .ok acc =>
        match (if acc.ready = [] then Except.ok (acc.newLimits, acc.st)
            else second_pass P now avail (acc.newLimits, acc.st)) with
        | .error e => .error e
        | .ok (nl, st1) =>
          .ok (nl, { st1 with last_computed_availability := nl, last_compute := now }) := by
  unfold compute_availability
  cases hfp : first_pass P (now - st.last_compute) now maxl avail
      { newLimits := [], ready := [], st := st } with
  | error e => simp [Except.bind, bind]
  | ok acc =>
    simp only [Except.bind, bind]
    by_cases hr : acc.ready = []
    · rw [if_pos hr, if_pos hr]
      simp [pure, Except.pure]
    · rw [if_neg hr, if_neg hr]
      cases hsp : second_pass P now avail (acc.newLimits, acc.st) with
      | error e => rfl
      | ok y => obtain ⟨nl, st1⟩ := y; rfl

/-! Claim C8: the calculate_trip_risk step function. -/

/-- C8: calculate_trip_risk maps the overcurrent percentage p to exactly this
step function: trip_risk_threshold/60 for p ≤ 0.13, trip_risk_threshold/30 for
0.13 < p ≤ 0.40, trip_risk_threshold/10 for 0.40 < p ≤ 1.0, and the full
trip_risk_threshold for p > 1.0. -/
theorem c8_trip_risk_step (P : OLBParams) (p : ℚ) :
    (p ≤ 13 / 100 → calculate_trip_risk P p = P.trip_risk_threshold / 60) ∧
    (13 / 100 < p → p ≤ 40 / 100 → calculate_trip_risk P p = P.trip_risk_threshold / 30) ∧
    (40 / 100 < p → p ≤ 1 → calculate_trip_risk P p = P.trip_risk_threshold / 10) ∧
    (1 < p → calculate_trip_risk P p = P.trip_risk_threshold) := by
  unfold calculate_trip_risk
  refine ⟨fun h => ?_, fun h1 h2 => ?_, fun h1 h2 => ?_, fun h => ?_⟩ <;>
    split_ifs <;> first | rfl | linarith

/-- Witness for C8 at the four branches with the default threshold 60. -/
theorem c8_trip_risk_step_witness :
    calculate_trip_risk defaultOLBParams (1 / 10) = defaultOLBParams.trip_risk_threshold / 60 ∧
    calculate_trip_risk defaultOLBParams (2 / 10) = defaultOLBParams.trip_risk_threshold / 30 ∧
    calculate_trip_risk defaultOLBParams (8 / 10) = defaultOLBParams.trip_risk_threshold / 10 ∧
    calculate_trip_risk defaultOLBParams (12 / 10) = defaultOLBParams.trip_risk_threshold :=
  ⟨(c8_trip_risk_step defaultOLBParams (1 / 10)).1 (by norm_num),
   (c8_trip_risk_step defaultOLBParams (2 / 10)).2.1 (by norm_num) (by norm_num),
   (c8_trip_risk_step defaultOLBParams (8 / 10)).2.2.1 (by norm_num) (by norm_num),
   (c8_trip_risk_step defaultOLBParams (12 / 10)).2.2.2 (by norm_num)⟩

/-! Claim C1: conservation of cuts. -/

/-- C1 counterexample: with two active chargers at 10 A each and a deficit of
-5 A on phase L1, update_allocation cuts both chargers from 10 to 7, so the
total cut (10-7)+(10-7) = 6 exceeds the magnitude 5 of the deficit: floor
rounding toward minus infinity over-distributes the deficit, refuting the
claim that the sum of cuts never exceeds it. -/
theorem c1_counterexample :
    (update_allocation [(1, c1Charger), (2, c1Charger)] [(Phase.l1, -5)] 0).map
      Prod.fst = .ok [(1, [(Phase.l1, 7)]), (2, [(Phase.l1, 7)])] ∧
    ((10 - 7) + (10 - 7) : ℤ) > |(-5 : ℤ)| := by
  constructor
  · norm_num [update_allocation, active_chargers, c1Charger, detect_pass,
      detect_manual_override, truthyD, any_current_differs, dget, allocate_current,
      distribute_cuts, collect_phase_currents, apply_cuts, cut_for, dset, sumSnd,
      apply_results, has_changes_for, any_limit_differs, distribute_increases,
      Except.map, Except.bind, bind, pure, Except.pure, py_int, List.filter,
      List.cons_ne_nil]
  · decide

/-- Sum of negated values over a mapped list. -/
theorem sum_map_neg_pair (f : CId × ℤ → ℤ) (l : List (CId × ℤ)) :
    (l.map fun x => -(f x)).sum = -((l.map f).sum) := by
  induction l with
  | nil => simp
  | cons h t ih =>
    simp only [List.map_cons, List.sum_cons, ih]
    ring

/-- Value of sumSnd on a cons cell. -/
theorem sumSnd_cons (h : CId × ℤ) (t : List (CId × ℤ)) :
    sumSnd (h :: t) = h.2 + sumSnd t := by
  simp [sumSnd]

/-- Upper floor bound for one proportional cut. -/
theorem cut_for_le (d T c : ℤ) :
    ((cut_for d T c : ℤ) : ℚ) ≤ ((d : ℚ) / (T : ℚ)) * (c : ℚ) := by
  have hf := Int.floor_le ((d : ℚ) * ((c : ℚ) / (T : ℚ)))
  calc ((cut_for d T c : ℤ) : ℚ) ≤ (d : ℚ) * ((c : ℚ) / (T : ℚ)) := hf
    _ = ((d : ℚ) / (T : ℚ)) * (c : ℚ) := by ring

/-- Lower floor bound for one proportional cut. -/
theorem cut_for_gt (d T c : ℤ) :
    ((d : ℚ) / (T : ℚ)) * (c : ℚ) - 1 < ((cut_for d T c : ℤ) : ℚ) := by
  have hf := Int.sub_one_lt_floor ((d : ℚ) * ((c : ℚ) / (T : ℚ)))
  calc ((d : ℚ) / (T : ℚ)) * (c : ℚ) - 1
      = (d : ℚ) * ((c : ℚ) / (T : ℚ)) - 1 := by ring
    _ < ((cut_for d T c : ℤ) : ℚ) := hf

/-- Floor bounds for the sum of the proportional cuts. -/
theorem c1_cut_sum_aux (d T : ℤ) (l : List (CId × ℤ)) :
    ((d : ℚ) / (T : ℚ)) * (sumSnd l : ℚ) - l.length ≤
      (((l.map fun x => cut_for d T x.2).sum : ℤ) : ℚ) ∧
    (((l.map fun x => cut_for d T x.2).sum : ℤ) : ℚ) ≤
      ((d : ℚ) / (T : ℚ)) * (sumSnd l : ℚ) := by
  induction l with
  | nil => simp [sumSnd]
  | cons h t ih =>
    have h1 := cut_for_le d T h.2
    have h2 := cut_for_gt d T h.2
    obtain ⟨ih1, ih2⟩ := ih
    rw [sumSnd_cons]
    simp only [List.map_cons, List.sum_cons, List.length_cons]
    push_cast at ih1 ih2 ⊢
    rw [mul_add]
    constructor
    · linarith
    · linarith

/-- C1 amended: for the chargers collected by _distribute_cuts on an
overcurrent phase (deficit d < 0, nonzero total current), the total cut before
the clamp at 0 — the sum over chargers of the negated floor cut — is at least
the magnitude of the deficit, and exceeds it by less than one ampere per
charger: floor rounding toward minus infinity over-distributes, it never
under-distributes. -/
theorem c1_cut_sum_bounds (states : States) (phase : Phase) (l : List (CId × ℤ)) (d : ℤ)
    (hcol : collect_phase_currents phase (active_chargers states) = .ok l)
    (hd : d < 0) (hT : sumSnd l ≠ 0) :
    -d ≤ (l.map fun x => -(cut_for d (sumSnd l) x.2)).sum ∧
    (l.map fun x => -(cut_for d (sumSnd l) x.2)).sum < -d + l.length := by
  clear hcol hd
  have hTQ : ((sumSnd l : ℤ) : ℚ) ≠ 0 := Int.cast_ne_zero.mpr hT
  have hcancel : ((d : ℚ) / (sumSnd l : ℚ)) * (sumSnd l : ℚ) = (d : ℚ) :=
    div_mul_cancel₀ _ hTQ
  have hne : l ≠ [] := by
    intro h
    rw [h] at hT
    simp [sumSnd] at hT
  obtain ⟨h0, t, rfl⟩ := List.exists_cons_of_ne_nil hne
  have haux := c1_cut_sum_aux d (sumSnd (h0 :: t)) t
  have h1 := cut_for_le d (sumSnd (h0 :: t)) h0.2
  have h2 := cut_for_gt d (sumSnd (h0 :: t)) h0.2
  have hsum : ((sumSnd (h0 :: t) : ℤ) : ℚ) = (h0.2 : ℚ) + (sumSnd t : ℚ) := by
    rw [sumSnd_cons]
    push_cast
    ring
  have hd_eq : (d : ℚ) = ((d : ℚ) / (sumSnd (h0 :: t) : ℚ)) * (h0.2 : ℚ) +
      ((d : ℚ) / (sumSnd (h0 :: t) : ℚ)) * (sumSnd t : ℚ) := by
    calc (d : ℚ) = ((d : ℚ) / (sumSnd (h0 :: t) : ℚ)) * ((sumSnd (h0 :: t) : ℤ) : ℚ) :=
          hcancel.symm
      _ = _ := by rw [hsum]; ring
  have hub : (((h0 :: t).map fun x => cut_for d (sumSnd (h0 :: t)) x.2).sum : ℤ) ≤ d := by
    have hq : ((((h0 :: t).map fun x => cut_for d (sumSnd (h0 :: t)) x.2).sum : ℤ) : ℚ) ≤
        (d : ℚ) := by
      simp only [List.map_cons, List.sum_cons]
      rw [Int.cast_add]
      linarith [haux.2, h1]
    exact_mod_cast hq
  have hlb : (d : ℤ) - (h0 :: t).length <
      ((h0 :: t).map fun x => cut_for d (sumSnd (h0 :: t)) x.2).sum := by
    have hq : (d : ℚ) - (((h0 :: t).length : ℕ) : ℚ) <
        ((((h0 :: t).map fun x => cut_for d (sumSnd (h0 :: t)) x.2).sum : ℤ) : ℚ) := by
      simp only [List.map_cons, List.sum_cons, List.length_cons]
      rw [Int.cast_add, Nat.cast_add, Nat.cast_one]
      linarith [haux.1, h2]
    exact_mod_cast hq
  rw [sum_map_neg_pair]
  omega

/-- Witness for C1 amended bounds: two chargers at 10 A, deficit -5 A; the
collected currents sum to 20 and the cut bounds 5 ≤ total < 7 hold. -/
theorem c1_cut_sum_bounds_witness :
    -(-5 : ℤ) ≤ (([(1, (10 : ℤ)), (2, 10)].map
        fun x => -(cut_for (-5) (sumSnd [(1, 10), (2, 10)]) x.2)).sum) ∧
    (([(1, (10 : ℤ)), (2, 10)].map
        fun x => -(cut_for (-5) (sumSnd [(1, 10), (2, 10)]) x.2)).sum) <
      -(-5 : ℤ) + ([(1, (10 : ℤ)), (2, 10)] : List (CId × ℤ)).length :=
  c1_cut_sum_bounds [(1, c1Charger), (2, c1Charger)] Phase.l1
    [(1, 10), (2, 10)] (-5) (by decide) (by decide) (by decide)

/-! Claim C6: elapsed time on the first call. -/

/-- C6 counterexample: on the very first invocation of compute_availability on
a fresh balancer with now = 10 and an overcurrent of -5 A against a 32 A
limit, the accumulated trip risk after the call is 20 (rate 2 times elapsed
10), not 0: elapsed is not 0 on the first call, and trip risk IS accrued on
the very first invocation. -/
theorem c6_counterexample :
    (compute_availability defaultOLBParams initBState [(Phase.l1, -5)]
        [(Phase.l1, 32)] 10).map
      (fun x => x.2.cumulative_trip_risk Phase.l1) = .ok 20 ∧ (20 : ℚ) ≠ 0 := by
  constructor
  · norm_num [compute_availability, first_pass, second_pass, initBState, defaultOLBParams,
      dget, dset, pupd, py_int, dequeAppend, calculate_trip_risk, is_stable_recovery,
      is_consistent, pvariance, Except.map, Except.bind, bind, pure, Except.pure]
  · norm_num

/-- C6 amended: compute_availability derives elapsed from a single shared
last_compute timestamp (not one per phase), which a fresh balancer holds as 0;
the first call therefore uses elapsed = now - 0 = now, and an overcurrent
phase accrues risk rate * now on the very first invocation (shown below the
trip threshold, where no reset interferes). -/
theorem c6_first_call_accrues (P : OLBParams) (p : Phase) (a m now : ℚ)
    (ha : a < 0) (hm : m ≠ 0)
    (hlow : calculate_trip_risk P (|a| / m) * now < P.trip_risk_threshold) :
    (compute_availability P initBState [(p, a)] [(p, m)] now).map
      (fun x => x.2.cumulative_trip_risk p) =
      .ok (calculate_trip_risk P (|a| / m) * now) ∧
    initBState.last_compute = 0 := by
  refine ⟨?_, rfl⟩
  have hd : dget [(p, m)] p = some m := by simp [dget]
  have hne : ¬((0 : ℚ) + calculate_trip_risk P (|a| / m) * (now - 0) ≥
      P.trip_risk_threshold) := by
    rw [sub_zero, zero_add]
    exact not_le.mpr hlow
  simp only [compute_availability, first_pass, initBState, hd]
  rw [if_pos ha, if_neg hm, if_neg hne]
  simp [first_pass, pupd, Except.map, pure, Except.pure, bind, Except.bind]

/-! Claim C5: the recovery value. -/

/-- C5 counterexample: a fresh balancer, one phase with available current 100 A
and a configured maximum of 32 A, first call at now = 1000: the recovery
condition fires (window elapsed, stable, consistent) and the output for the
phase is the raw median 100, far above max_limits of 32 — the recovery value
is not capped at the phase's configured maximum. -/
theorem c5_counterexample :
    (compute_availability defaultOLBParams initBState [(Phase.l1, 100)]
        [(Phase.l1, 32)] 1000).map (fun x => dget x.1 Phase.l1) = .ok (some 100) ∧
    (100 : ℚ) > 32 := by
  constructor
  · norm_num [compute_availability, first_pass, second_pass, initBState, defaultOLBParams,
      dget, dset, pupd, py_int, dequeAppend, calculate_trip_risk, is_stable_recovery,
      is_consistent, pvariance, medianE, sortQ, insertQ, Except.map, Except.bind, bind,
      pure, Except.pure, List.cons_ne_nil]
  · norm_num

/-- Phases untouched by the second pass keep their first-pass value. -/
theorem second_pass_preserves (P : OLBParams) (now : ℚ) (p : Phase) :
    ∀ (items : List (Phase × ℚ)) (nl : List (Phase × ℚ)) (st : BState)
      (nl' : List (Phase × ℚ)) (st' : BState),
      p ∉ items.map Prod.fst →
      second_pass P now items (nl, st) = .ok (nl', st') →
      dget nl' p = dget nl p := by
  intro items
  induction items with
  | nil =>
    intro nl st nl' st' _ h
    simp only [second_pass] at h
    cases h
    rfl
  | cons hd rest ih =>
    intro nl st nl' st' hnp h
    simp only [List.map_cons, List.mem_cons] at hnp
    push_neg at hnp
    obtain ⟨hne, hnp2⟩ := hnp
    obtain ⟨q, av⟩ := hd
    simp only [second_pass] at h
    by_cases helig : now - st.last_adjustment_time q ≥ P.recovery_window * (4 / 5)
    · rw [if_pos helig] at h
      cases hmed : medianE (st.recovery_current_history q) with
      | error e =>
        rw [hmed] at h
        simp [Except.bind, bind] at h
      | ok mv =>
        rw [hmed] at h
        simp only [Except.bind, bind] at h
        have := ih _ _ _ _ hnp2 h
        rw [this, dget_dset_ne _ _ _ _ (fun he => hne he.symm)]
    · rw [if_neg helig] at h
      exact ih _ _ _ _ hnp2 h

/-- The second pass writes the median of the recovery history as the new limit
of every eligible phase. -/
theorem second_pass_at (P : OLBParams) (now : ℚ) (p : Phase) (m : ℚ) :
    ∀ (items : List (Phase × ℚ)) (nl : List (Phase × ℚ)) (st : BState)
      (nl' : List (Phase × ℚ)) (st' : BState),
      (items.map Prod.fst).Nodup →
      p ∈ items.map Prod.fst →
      now - st.last_adjustment_time p ≥ P.recovery_window * (4 / 5) →
      medianE (st.recovery_current_history p) = .ok m →
      second_pass P now items (nl, st) = .ok (nl', st') →
      dget nl' p = some m := by
  intro items
  induction items with
  | nil => intro nl st nl' st' _ hp; simp at hp
  | cons hd rest ih =>
    intro nl st nl' st' hnd hp helig hmed h
    obtain ⟨q, av⟩ := hd
    simp only [List.map_cons, List.nodup_cons] at hnd
    simp only [second_pass] at h
    by_cases hqp : q = p
    · subst hqp
      rw [if_pos helig] at h
      rw [hmed] at h
      simp only [Except.bind, bind] at h
      have hpres := second_pass_preserves P now q rest _ _ _ _ hnd.1 h
      rw [hpres, dget_dset_self]
    · have hp2 : p ∈ rest.map Prod.fst := by
        simp only [List.map_cons, List.mem_cons] at hp
        cases hp with
        | inl he => exact absurd he.symm hqp
        | inr he => exact he
      by_cases helq : now - st.last_adjustment_time q ≥ P.recovery_window * (4 / 5)
      · rw [if_pos helq] at h
        cases hmq : medianE (st.recovery_current_history q) with
        | error e =>
          rw [hmq] at h
          simp [Except.bind, bind] at h
        | ok mv =>
          rw [hmq] at h
          simp only [Except.bind, bind] at h
          refine ih _ _ _ _ hnd.2 hp2 ?_ ?_ h
          · simp only [pupd]
            rw [if_neg (fun he => hqp he.symm)]
            exact helig
          · simp only [pupd]
            rw [if_neg (fun he => hqp he.symm)]
            exact hmed
      · rw [if_neg helq] at h
        exact ih _ _ _ _ hnd.2 hp2 helig hmed h

/-- C5 amended: whenever the recovery coordination fires (some phase is fully
ready and the given phase's last adjustment is at least 80% of the recovery
window ago), compute_availability sets that phase's output to the median of
its buffered recovery samples, with no cap: the configured maximum
max_limits[phase] is not applied to this value. -/
theorem c5_recovery_sets_median (P : OLBParams) (st : BState)
    (avail maxl : List (Phase × ℚ)) (now : ℚ) (p : Phase) (rl : List Phase)
    (L m : ℚ) (H : List ℚ) (o : Option ℚ)
    (hnodup : (avail.map Prod.fst).Nodup)
    (hp : p ∈ avail.map Prod.fst)
    (hready : (first_pass P (now - st.last_compute) now maxl avail
        { newLimits := [], ready := [], st := st }).map FPAcc.ready = .ok rl)
    (hrlne : rl ≠ [])
    (hL : (first_pass P (now - st.last_compute) now maxl avail
        { newLimits := [], ready := [], st := st }).map
        (fun a => a.st.last_adjustment_time p) = .ok L)
    (helig : now - L ≥ P.recovery_window * (4 / 5))
    (hH : (first_pass P (now - st.last_compute) now maxl avail
        { newLimits := [], ready := [], st := st }).map
        (fun a => a.st.recovery_current_history p) = .ok H)
    (hm : medianE H = .ok m)
    (hok : (compute_availability P st avail maxl now).map (fun x => dget x.1 p) = .ok o) :
    o = some m := by
  cases hfp : first_pass P (now - st.last_compute) now maxl avail
      { newLimits := [], ready := [], st := st } with
  | error e =>
    rw [hfp] at hready
    simp [Except.map] at hready
  | ok acc =>
    rw [hfp] at hready hL hH
    simp only [Except.map] at hready hL hH
    cases hready
    cases hL
    cases hH
    rw [compute_availability_eq, hfp] at hok
    simp only at hok
    rw [if_neg hrlne] at hok
    cases hsp : second_pass P now avail (acc.newLimits, acc.st) with
    | error e =>
      rw [hsp] at hok
      simp [Except.map] at hok
    | ok y =>
      rw [hsp] at hok
      obtain ⟨nl1, st1⟩ := y
      have := second_pass_at P now p m avail acc.newLimits acc.st nl1 st1
        hnodup hp helig hm hsp
      simp only [Except.map] at hok
      cases hok
      exact this

/-- Witness for C5 amended: the concrete recovery above (history [100], median
100) through the theorem. -/
theorem c5_recovery_sets_median_witness : (some (100 : ℚ)) = some 100 :=
  c5_recovery_sets_median defaultOLBParams initBState [(Phase.l2, 100)]
    [(Phase.l2, 32)] 1000 Phase.l2 [Phase.l2] 0 100 [100] (some 100)
    (by simp)
    (by simp)
    (by norm_num [first_pass, initBState, defaultOLBParams, dget, dset, pupd, py_int,
      dequeAppend, calculate_trip_risk, is_stable_recovery, is_consistent, pvariance,
      Except.map])
    (by simp)
    (by norm_num [first_pass, initBState, defaultOLBParams, dget, dset, pupd, py_int,
      dequeAppend, calculate_trip_risk, is_stable_recovery, is_consistent, pvariance,
      Except.map])
    (by norm_num [defaultOLBParams])
    (by norm_num [first_pass, initBState, defaultOLBParams, dget, dset, pupd, py_int,
      dequeAppend, calculate_trip_risk, is_stable_recovery, is_consistent, pvariance,
      Except.map])
    (by norm_num [medianE, sortQ, insertQ])
    (by norm_num [compute_availability, first_pass, second_pass, initBState,
      defaultOLBParams, dget, dset, pupd, py_int, dequeAppend, calculate_trip_risk,
      is_stable_recovery, is_consistent, pvariance, medianE, sortQ, insertQ, Except.map,
      Except.bind, bind, pure, Except.pure, List.cons_ne_nil])

/-- Witness for C6 amended at now = 10 with a -5 A overcurrent on a 32 A
phase: risk rate 2, accrued risk 20. -/
theorem c6_first_call_accrues_witness :
    (compute_availability defaultOLBParams initBState [(Phase.l2, -5)]
        [(Phase.l2, 32)] 10).map
      (fun x => x.2.cumulative_trip_risk Phase.l2) =
      .ok (calculate_trip_risk defaultOLBParams (|(-5 : ℚ)| / 32) * 10) ∧
    initBState.last_compute = 0 :=
  c6_first_call_accrues defaultOLBParams Phase.l2 (-5) 32 10 (by norm_num)
    (by norm_num) (by norm_num [calculate_trip_risk, defaultOLBParams])

/-! Claim C2: a raise before the full recovery window. -/

/-- The first pass never changes last_computed_availability or last_compute. -/
theorem first_pass_st_inv (P : OLBParams) (e now : ℚ) (maxl : List (Phase × ℚ)) :
    ∀ (items : List (Phase × ℚ)) (acc acc' : FPAcc),
      first_pass P e now maxl items acc = .ok acc' →
      acc'.st.last_computed_availability = acc.st.last_computed_availability := by
  intro items
  induction items with
  | nil =>
    intro acc acc' h
    simp only [first_pass] at h
    cases h
    rfl
  | cons hd rest ih =>
    intro acc acc' h
    obtain ⟨q, av⟩ := hd
    simp only [first_pass] at h
    cases hml : dget maxl q with
    | none => rw [hml] at h; cases h
    | some ml =>
      rw [hml] at h
      dsimp only at h
      by_cases hav : av < 0
      · rw [if_pos hav] at h
        by_cases hz : ml = 0
        · rw [if_pos hz] at h; cases h
        · rw [if_neg hz] at h
          by_cases hcross : acc.st.cumulative_trip_risk q +
              calculate_trip_risk P (|av| / ml) * e ≥ P.trip_risk_threshold
          · rw [if_pos hcross] at h
            have h2 := ih _ _ h
            exact h2
          · rw [if_neg hcross] at h
            have h2 := ih _ _ h
            exact h2
      · rw [if_neg hav] at h
        have h2 := ih _ _ h
        exact h2

/-- After the first pass, each phase's last adjustment time is either its old
value or the current call time. -/
theorem first_pass_lastAdj (P : OLBParams) (e now : ℚ) (maxl : List (Phase × ℚ)) :
    ∀ (items : List (Phase × ℚ)) (acc acc' : FPAcc) (q : Phase),
      first_pass P e now maxl items acc = .ok acc' →
      acc'.st.last_adjustment_time q = acc.st.last_adjustment_time q ∨
        acc'.st.last_adjustment_time q = now := by
  intro items
  induction items with
  | nil =>
    intro acc acc' q h
    simp only [first_pass] at h
    cases h
    exact Or.inl rfl
  | cons hd rest ih =>
    intro acc acc' q h
    obtain ⟨ph, av⟩ := hd
    simp only [first_pass] at h
    cases hml : dget maxl ph with
    | none => rw [hml] at h; cases h
    | some ml =>
      rw [hml] at h
      dsimp only at h
      by_cases hav : av < 0
      · rw [if_pos hav] at h
        by_cases hz : ml = 0
        · rw [if_pos hz] at h; cases h
        · rw [if_neg hz] at h
          by_cases hcross : acc.st.cumulative_trip_risk ph +
              calculate_trip_risk P (|av| / ml) * e ≥ P.trip_risk_threshold
          · rw [if_pos hcross] at h
            cases ih _ _ q h with
            | inl h2 =>
              simp only [pupd] at h2
              by_cases hqp : q = ph
              · rw [if_pos hqp] at h2
                exact Or.inr h2
              · rw [if_neg hqp] at h2
                exact Or.inl h2
            | inr h2 => exact Or.inr h2
          · rw [if_neg hcross] at h
            have h2 := ih _ _ q h
            exact h2
      · rw [if_neg hav] at h
        have h2 := ih _ _ q h
        exact h2

/-- Each value of the first-pass output limits is either inherited from the
accumulator, the settled value of the phase (its last computed availability,
defaulting to the sample itself), or a fresh cut to a negative sample. -/
theorem first_pass_val (P : OLBParams) (e now : ℚ) (maxl : List (Phase × ℚ)) :
    ∀ (items : List (Phase × ℚ)) (acc acc' : FPAcc) (p : Phase) (x : ℚ),
      first_pass P e now maxl items acc = .ok acc' →
      dget acc'.newLimits p = some x →
      dget acc.newLimits p = some x ∨
        ∃ a, (p, a) ∈ items ∧
          (x = (dget acc.st.last_computed_availability p).getD a ∨ (a < 0 ∧ x = a)) := by
  intro items
  induction items with
  | nil =>
    intro acc acc' p x h hx
    simp only [first_pass] at h
    cases h
    exact Or.inl hx
  | cons hd rest ih =>
    intro acc acc' p x h hx
    obtain ⟨ph, av⟩ := hd
    simp only [first_pass] at h
    cases hml : dget maxl ph with
    | none => rw [hml] at h; cases h
    | some ml =>
      rw [hml] at h
      dsimp only at h
      by_cases hav : av < 0
      · rw [if_pos hav] at h
        by_cases hz : ml = 0
        · rw [if_pos hz] at h; cases h
        · rw [if_neg hz] at h
          by_cases hcross : acc.st.cumulative_trip_risk ph +
              calculate_trip_risk P (|av| / ml) * e ≥ P.trip_risk_threshold
          · rw [if_pos hcross] at h
            cases ih _ _ p x h hx with
            | inl h2 =>
              by_cases hqp : ph = p
              · subst hqp
                rw [dget_dset_self] at h2
                obtain rfl := Option.some.inj h2
                exact Or.inr ⟨av, List.mem_cons_self _ _, Or.inr ⟨hav, rfl⟩⟩
              · rw [dget_dset_ne _ _ _ _ hqp] at h2
                exact Or.inl h2
            | inr h2 =>
              obtain ⟨a, hmem, hval⟩ := h2
              exact Or.inr ⟨a, List.mem_cons_of_mem _ hmem, hval⟩
          · rw [if_neg hcross] at h
            cases ih _ _ p x h hx with
            | inl h2 =>
              by_cases hqp : ph = p
              · subst hqp
                rw [dget_dset_self] at h2
                obtain rfl := Option.some.inj h2
                exact Or.inr ⟨av, List.mem_cons_self _ _, Or.inl rfl⟩
              · rw [dget_dset_ne _ _ _ _ hqp] at h2
                exact Or.inl h2
            | inr h2 =>
              obtain ⟨a, hmem, hval⟩ := h2
              exact Or.inr ⟨a, List.mem_cons_of_mem _ hmem, hval⟩
      · rw [if_neg hav] at h
        cases ih _ _ p x h hx with
        | inl h2 =>
          by_cases hqp : ph = p
          · subst hqp
            rw [dget_dset_self] at h2
            obtain rfl := Option.some.inj h2
            exact Or.inr ⟨av, List.mem_cons_self _ _, Or.inl rfl⟩
          · rw [dget_dset_ne _ _ _ _ hqp] at h2
            exact Or.inl h2
        | inr h2 =>
          obtain ⟨a, hmem, hval⟩ := h2
          exact Or.inr ⟨a, List.mem_cons_of_mem _ hmem, hval⟩

/-- Each value of the second-pass output limits is either inherited or was
written for a phase whose eligibility test passed, with the last adjustment
time either the incoming one or the current call time. -/
theorem second_pass_val (P : OLBParams) (now : ℚ) (p : Phase) :
    ∀ (items : List (Phase × ℚ)) (nl : List (Phase × ℚ)) (st : BState)
      (nl' : List (Phase × ℚ)) (st' : BState) (x : ℚ),
      second_pass P now items (nl, st) = .ok (nl', st') →
      dget nl' p = some x →
      dget nl p = some x ∨
        ∃ t0, (t0 = st.last_adjustment_time p ∨ t0 = now) ∧
          now - t0 ≥ P.recovery_window * (4 / 5) := by
  intro items
  induction items with
  | nil =>
    intro nl st nl' st' x h hx
    simp only [second_pass] at h
    cases h
    exact Or.inl hx
  | cons hd rest ih =>
    intro nl st nl' st' x h hx
    obtain ⟨q, av⟩ := hd
    simp only [second_pass] at h
    by_cases helig : now - st.last_adjustment_time q ≥ P.recovery_window * (4 / 5)
    · rw [if_pos helig] at h
      cases hmq : medianE (st.recovery_current_history q) with
      | error e2 =>
        rw [hmq] at h
        simp [Except.bind, bind] at h
      | ok mv =>
        rw [hmq] at h
        simp only [Except.bind, bind] at h
        cases ih _ _ _ _ x h hx with
        | inl h2 =>
          by_cases hqp : q = p
          · subst hqp
            rw [dget_dset_self] at h2
            exact Or.inr ⟨st.last_adjustment_time q, Or.inl rfl, helig⟩
          · rw [dget_dset_ne _ _ _ _ hqp] at h2
            exact Or.inl h2
        | inr h2 =>
          obtain ⟨t0, ht0, helig2⟩ := h2
          cases ht0 with
          | inl ht0 =>
            simp only [pupd] at ht0
            by_cases hpq : p = q
            · rw [if_pos hpq] at ht0
              exact Or.inr ⟨t0, Or.inr ht0, helig2⟩
            · rw [if_neg hpq] at ht0
              exact Or.inr ⟨t0, Or.inl ht0, helig2⟩
          | inr ht0 => exact Or.inr ⟨t0, Or.inr ht0, helig2⟩
    · rw [if_neg helig] at h
      exact ih _ _ _ _ x h hx

set_option maxHeartbeats 4000000 in
/-- C2 counterexample: after phase L1 is cut to -100 at time 100 (its trip
risk crossed the threshold), a call at time 950 — only 850 s after that
phase's last adjustment, less than the 900 s recovery window — raises L1's
output from -100 to 10, because the fully-ready phase L2 triggers the
coordinated second pass which already includes L1 at 80% of the window. -/
theorem c2_counterexample :
    dget c2St.last_computed_availability Phase.l1 = some (-100) ∧
    c2St.last_adjustment_time Phase.l1 = 100 ∧
    (compute_availability defaultOLBParams c2St [(Phase.l1, 10), (Phase.l2, 5)]
        [(Phase.l1, 32), (Phase.l2, 32)] 950).map (fun x => dget x.1 Phase.l1) =
      .ok (some 10) ∧
    (950 : ℚ) - 100 < 900 ∧ (-100 : ℚ) < 10 := by
  norm_num [c2St, c2Calls, run_state, run_balancer, compute_availability, first_pass,
    second_pass, initBState, defaultOLBParams, dget, dset, pupd, py_int, dequeAppend,
    calculate_trip_risk, is_stable_recovery, is_consistent, pvariance, medianE, sortQ,
    insertQ, Except.map, Except.bind, bind, pure, Except.pure, List.cons_ne_nil,
    Int.toNat_ofNat]

/-- C2 amended: once a phase has settled (it has a last computed availability
prev), a call raises its output above prev only in one of two ways: via the
coordinated recovery pass — which requires some phase to be fully ready and
this phase's last adjustment to lie at least 80% of the recovery window in
the past (the full window with stable samples is only required of the phase
that triggers recovery, not of the raised phase) — or via a fresh overcurrent
cut to a raw available value that is itself above prev. -/
theorem c2_raise_characterisation (P : OLBParams) (st : BState)
    (avail maxl : List (Phase × ℚ)) (now : ℚ) (p : Phase) (prev v : ℚ)
    (hw : 0 < P.recovery_window)
    (hprev : dget st.last_computed_availability p = some prev)
    (hout : (compute_availability P st avail maxl now).map (fun x => dget x.1 p) =
      .ok (some v))
    (hraise : prev < v) :
    (∃ acc, first_pass P (now - st.last_compute) now maxl avail
        { newLimits := [], ready := [], st := st } = .ok acc ∧ acc.ready ≠ [] ∧
        now - st.last_adjustment_time p ≥ P.recovery_window * (4 / 5)) ∨
    (∃ a, (p, a) ∈ avail ∧ a < 0 ∧ prev < a ∧ v = a) := by
  cases hfp : first_pass P (now - st.last_compute) now maxl avail
      { newLimits := [], ready := [], st := st } with
  | error e =>
    rw [compute_availability_eq, hfp] at hout
    simp [Except.map] at hout
  | ok acc =>
    rw [compute_availability_eq, hfp] at hout
    simp only at hout
    have hfromfp : dget acc.newLimits p = some v →
        (∃ a, (p, a) ∈ avail ∧ a < 0 ∧ prev < a ∧ v = a) := by
      intro hv
      cases first_pass_val P (now - st.last_compute) now maxl avail _ acc p v hfp hv with
      | inl h2 => simp [dget] at h2
      | inr h2 =>
        obtain ⟨a, hmem, hval⟩ := h2
        cases hval with
        | inl h3 =>
          rw [hprev] at h3
          simp only [Option.getD] at h3
          subst h3
          exact absurd hraise (lt_irrefl _)
        | inr h3 => exact ⟨a, hmem, h3.1, h3.2 ▸ hraise, h3.2⟩
    by_cases hr : acc.ready = []
    · rw [if_pos hr] at hout
      simp only [Except.map, Except.ok.injEq] at hout
      exact Or.inr (hfromfp hout)
    · rw [if_neg hr] at hout
      cases hsp : second_pass P now avail (acc.newLimits, acc.st) with
      | error e =>
        rw [hsp] at hout
        simp [Except.map] at hout
      | ok y =>
        rw [hsp] at hout
        obtain ⟨nl1, st1⟩ := y
        simp only [Except.map, Except.ok.injEq] at hout
        have hv : dget nl1 p = some v := hout
        cases second_pass_val P now p avail acc.newLimits acc.st nl1 st1 v hsp hv with
        | inl h2 => exact Or.inr (hfromfp h2)
        | inr h2 =>
          obtain ⟨t0, ht0, helig⟩ := h2
          have hwc : ¬(now - now ≥ P.recovery_window * (4 / 5)) := by
            simp only [sub_self]
            intro hc
            nlinarith
          cases ht0 with
          | inl ht0 =>
            cases first_pass_lastAdj P (now - st.last_compute) now maxl avail _ acc p hfp with
            | inl h3 =>
              refine Or.inl ⟨acc, rfl, hr, ?_⟩
              rw [ht0, h3] at helig
              exact helig
            | inr h3 =>
              rw [ht0, h3] at helig
              exact absurd helig hwc
          | inr ht0 =>
            rw [ht0] at helig
            exact absurd helig hwc

/-- Witness for C2 amended: a settled phase at 5 A with buffered 7 A samples
is raised to 7 by the coordinated recovery at now = 1000; the theorem yields
the characterisation disjunction for it. -/
theorem c2_raise_characterisation_witness :
    (∃ acc, first_pass defaultOLBParams (1000 - c2wSt.last_compute) 1000
        [(Phase.l1, 32)] [(Phase.l1, 7)]
        { newLimits := [], ready := [], st := c2wSt } = .ok acc ∧ acc.ready ≠ [] ∧
        (1000 : ℚ) - c2wSt.last_adjustment_time Phase.l1 ≥
          defaultOLBParams.recovery_window * (4 / 5)) ∨
    (∃ a, (Phase.l1, a) ∈ [((Phase.l1 : Phase), (7 : ℚ))] ∧ a < 0 ∧ (5 : ℚ) < a ∧
      (7 : ℚ) = a) :=
  c2_raise_characterisation defaultOLBParams c2wSt [(Phase.l1, 7)] [(Phase.l1, 32)]
    1000 Phase.l1 5 7
    (by norm_num [defaultOLBParams])
    (by norm_num [c2wSt, dget])
    (by norm_num [compute_availability, first_pass, second_pass, c2wSt,
      defaultOLBParams, dget, dset, pupd, py_int, dequeAppend, calculate_trip_risk,
      is_stable_recovery, is_consistent, pvariance, medianE, sortQ, insertQ, Except.map,
      Except.bind, bind, pure, Except.pure, List.cons_ne_nil])
    (by norm_num)

/-! Claim C3: idempotence of update_allocation. -/

/-- Properties of detect_manual_override: the charger reference, the last set
current and the last update time are untouched, and applying the detection to
its own output is stable. -/
theorem detect_props (s s1 : ChargerState) (b : Bool)
    (h : detect_manual_override s = .ok (s1, b)) :
    s1.charger = s.charger ∧ s1.last_set_current = s.last_set_current ∧
    s1.last_update_time = s.last_update_time ∧
    ∃ b2, detect_manual_override s1 = .ok (s1, b2) := by
  unfold detect_manual_override at h
  cases hcur : truthyD s.charger.current_limit with
  | none =>
    rw [hcur] at h
    dsimp only at h
    cases h
    exact ⟨rfl, rfl, rfl, false, by unfold detect_manual_override; rw [hcur]⟩
  | some cur =>
    cases hlast : truthyD s.last_set_current with
    | none =>
      rw [hcur, hlast] at h
      dsimp only at h
      cases h
      exact ⟨rfl, rfl, rfl, false, by unfold detect_manual_override; rw [hcur, hlast]⟩
    | some last =>
      rw [hcur, hlast] at h
      dsimp only at h
      cases hb : any_current_differs last cur with
      | error e =>
        rw [hb] at h
        simp [bind, Except.bind] at h
      | ok b0 =>
        rw [hb] at h
        simp only [bind, Except.bind] at h
        cases b0 with
        | false =>
          simp only [Bool.false_eq_true, if_false] at h
          cases h
          exact ⟨rfl, rfl, rfl, false, by
            unfold detect_manual_override
            rw [hcur, hlast]
            dsimp only
            rw [hb]
            simp [bind, Except.bind]⟩
        | true =>
          simp only [if_true] at h
          cases h
          refine ⟨rfl, rfl, rfl, true, ?_⟩
          unfold detect_manual_override
          dsimp only
          rw [hcur, hlast]
          dsimp only
          rw [hb]
          simp [bind, Except.bind]

/-- The detect pass is stable: running it on its own output changes nothing. -/
theorem detect_pass_idem : ∀ (states s1 : States),
    detect_pass states = .ok s1 → detect_pass s1 = .ok s1 := by
  intro states
  induction states with
  | nil =>
    intro s1 h
    simp only [detect_pass] at h
    cases h
    rfl
  | cons hd rest ih =>
    intro s1 h
    obtain ⟨id, s⟩ := hd
    simp only [detect_pass] at h
    by_cases hcc : s.charger.can_charge
    · rw [if_pos hcc] at h
      cases hdet : detect_manual_override s with
      | error e =>
        rw [hdet] at h
        simp [bind, Except.bind, Except.map] at h
      | ok sb =>
        obtain ⟨sd, b⟩ := sb
        rw [hdet] at h
        simp only [bind, Except.bind, Except.map] at h
        cases hrest : detect_pass rest with
        | error e =>
          rw [hrest] at h
          simp at h
        | ok rest1 =>
          rw [hrest] at h
          simp only at h
          cases h
          obtain ⟨hch, _, _, b2, hdet2⟩ := detect_props s sd b hdet
          simp only [detect_pass]
          rw [if_pos (hch ▸ hcc), hdet2]
          simp only [bind, Except.bind, Except.map]
          rw [ih rest1 hrest]
    · rw [if_neg hcc] at h
      simp only [pure, Except.pure, bind, Except.bind] at h
      cases hrest : detect_pass rest with
      | error e =>
        rw [hrest] at h
        simp at h
      | ok rest1 =>
        rw [hrest] at h
        simp only at h
        cases h
        simp only [detect_pass]
        rw [if_neg hcc]
        simp only [pure, Except.pure, bind, Except.bind]
        rw [ih rest1 hrest]

/-- The detect pass does not change which chargers are active (it never
touches the charger reference). -/
theorem detect_pass_active_nil : ∀ (states s1 : States),
    detect_pass states = .ok s1 →
    (active_chargers s1 = [] ↔ active_chargers states = []) := by
  intro states
  induction states with
  | nil =>
    intro s1 h
    simp only [detect_pass] at h
    cases h
    rfl
  | cons hd rest ih =>
    intro s1 h
    obtain ⟨id, s⟩ := hd
    simp only [detect_pass] at h
    by_cases hcc : s.charger.can_charge
    · rw [if_pos hcc] at h
      cases hdet : detect_manual_override s with
      | error e =>
        rw [hdet] at h
        simp [bind, Except.bind, Except.map] at h
      | ok sb =>
        obtain ⟨sd, b⟩ := sb
        rw [hdet] at h
        simp only [bind, Except.bind, Except.map] at h
        cases hrest : detect_pass rest with
        | error e => rw [hrest] at h; simp at h
        | ok rest1 =>
          rw [hrest] at h
          simp only at h
          cases h
          obtain ⟨hch, _, _, _⟩ := detect_props s sd b hdet
          simp [active_chargers, List.filter, hch, hcc]
    · rw [if_neg hcc] at h
      simp only [pure, Except.pure, bind, Except.bind] at h
      cases hrest : detect_pass rest with
      | error e => rw [hrest] at h; simp at h
      | ok rest1 =>
        rw [hrest] at h
        simp only at h
        cases h
        have hcc' : s.charger.can_charge = false := by
          cases hb : s.charger.can_charge
          · rfl
          · exact absurd hb hcc
        have hfil : ∀ (l : States), active_chargers ((id, s) :: l) = active_chargers l := by
          intro l
          simp [active_chargers, List.filter_cons, hcc']
        rw [hfil, hfil]
        exact ih rest1 hrest

/-- When the result pass produces an empty result it changes no state, and
replaying it at any time again yields the empty result. -/
theorem apply_results_empty (now now2 : ℚ) : ∀ (alloc : Result) (states s_out : States),
    apply_results now alloc states = .ok ([], s_out) →
    s_out = states ∧ apply_results now2 alloc states = .ok ([], states) := by
  intro alloc
  induction alloc with
  | nil =>
    intro states s_out h
    simp only [apply_results] at h
    cases h
    exact ⟨rfl, rfl⟩
  | cons hd rest ih =>
    intro states s_out h
    obtain ⟨id, nl⟩ := hd
    simp only [apply_results] at h
    cases hst : dget states id with
    | none => rw [hst] at h; cases h
    | some st =>
      rw [hst] at h
      dsimp only at h
      cases hcs : truthyD st.charger.current_limit with
      | none =>
        rw [hcs] at h
        dsimp only at h
        obtain ⟨h1, h2⟩ := ih states s_out h
        refine ⟨h1, ?_⟩
        simp only [apply_results]
        rw [hst]
        dsimp only
        rw [hcs]
        exact h2
      | some cs =>
        rw [hcs] at h
        dsimp only at h
        cases hhc : has_changes_for st cs nl with
        | error e =>
          rw [hhc] at h
          simp [bind, Except.bind] at h
        | ok hc =>
          rw [hhc] at h
          simp only [bind, Except.bind] at h
          cases hc with
          | true =>
            simp only [if_true] at h
            split at h
            · cases h
            · simp at h
          | false =>
            simp only [Bool.false_eq_true, if_false] at h
            obtain ⟨h1, h2⟩ := ih states s_out h
            refine ⟨h1, ?_⟩
            simp only [apply_results]
            rw [hst]
            dsimp only
            rw [hcs]
            dsimp only
            rw [hhc]
            simp only [bind, Except.bind, Bool.false_eq_true, if_false]
            exact h2

/-- C3 counterexample: one active charger at 16 A, a sustained deficit of
-5 A, no hardware write between the calls: the first call returns the cut to
11 A, and the second identical call returns the same non-empty cut map again
(the allocator sees its own last_set_current of 11 disagreeing with the
still-reported 16, treats it as a manual override, and recomputes the same
cuts), refuting that the second call yields an empty result map. -/
theorem c3_counterexample :
    (update_allocation [(1, c3Charger)] [(Phase.l1, -5)] 0).map Prod.fst =
      .ok [(1, [(Phase.l1, 11)])] ∧
    c3_run2 = .ok [(1, [(Phase.l1, 11)])] ∧
    ([(1, [(Phase.l1, 11)])] : Result) ≠ [] := by
  refine ⟨?_, ?_, by simp⟩ <;>
    norm_num [c3_run2, update_allocation, active_chargers, c3Charger, detect_pass,
      detect_manual_override, truthyD, any_current_differs, dget, allocate_current,
      distribute_cuts, collect_phase_currents, apply_cuts, cut_for, dset, sumSnd,
      apply_results, has_changes_for, any_limit_differs, distribute_increases,
      collect_potentials, Except.map, Except.bind, bind, pure, Except.pure, py_int,
      List.filter, List.cons_ne_nil]

/-- C3 amended: if a call to update_allocation returns an empty result map,
then nothing was changed (the returned registry is the post-override-detection
registry) and any immediate identical call also returns the empty map; but
when the first call did return changes and no hardware write was applied, the
second call repeats those changes instead of returning an empty map. -/
theorem c3_empty_result_stable (states : States) (avail : List (Phase × ℤ))
    (now now2 : ℚ) (s' : States)
    (h : update_allocation states avail now = .ok ([], s')) :
    update_allocation s' avail now2 = .ok ([], s') := by
  unfold update_allocation at h ⊢
  by_cases hact : active_chargers states = []
  · rw [if_pos hact] at h
    simp only [Except.ok.injEq, Prod.mk.injEq] at h
    obtain ⟨-, h2⟩ := h
    subst h2
    rw [if_pos hact]
  · rw [if_neg hact] at h
    cases hdp : detect_pass states with
    | error e =>
      rw [hdp] at h
      simp [bind, Except.bind] at h
    | ok s1 =>
      rw [hdp] at h
      simp only [bind, Except.bind] at h
      cases hal : allocate_current s1 avail [] with
      | error e =>
        rw [hal] at h
        simp at h
      | ok alloc =>
        rw [hal] at h
        simp only at h
        obtain ⟨h1, h2⟩ := apply_results_empty now now2 alloc s1 s' h
        subst h1
        have hact1 : ¬active_chargers s' = [] := by
          rw [detect_pass_active_nil states s' hdp]
          exact hact
        rw [if_neg hact1]
        rw [detect_pass_idem states s' hdp]
        simp only [bind, Except.bind]
        rw [hal]
        simp only
        exact h2

/-- Witness for C3 amended: with zero available current the first call changes
nothing and returns an empty map, and so does the replay. -/
theorem c3_empty_result_stable_witness :
    update_allocation [(1, c3Charger)] [(Phase.l1, 0)] 1 = .ok ([], [(1, c3Charger)]) :=
  c3_empty_result_stable [(1, c3Charger)] [(Phase.l1, 0)] 0 1 [(1, c3Charger)]
    (by norm_num [update_allocation, active_chargers, c3Charger, detect_pass,
      detect_manual_override, truthyD, any_current_differs, dget, allocate_current,
      apply_results, Except.map, Except.bind, bind, pure, Except.pure, List.filter,
      List.cons_ne_nil])

/-! Claim C10: the default value of the now parameter. -/

/-- A successful compute_availability always stamps its call time into the
shared last_compute field of the resulting state. -/
theorem compute_availability_last_compute (P : OLBParams) (st : BState)
    (avail maxl : List (Phase × ℚ)) (now : ℚ) (out : List (Phase × ℚ)) (st' : BState)
    (h : compute_availability P st avail maxl now = .ok (out, st')) :
    st'.last_compute = now := by
  rw [compute_availability_eq] at h
  split at h
  · cases h
  · split at h
    · cases h
    · simp only [Except.ok.injEq, Prod.mk.injEq] at h
      obtain ⟨-, h2⟩ := h
      subst h2
      rfl

/-- The detect pass preserves every charger's last update timestamp. -/
theorem detect_pass_entries : ∀ (states s1 : States),
    detect_pass states = .ok s1 →
    ∀ (id : CId) (cst : ChargerState), (id, cst) ∈ s1 →
      ∃ cst0, (id, cst0) ∈ states ∧ cst.last_update_time = cst0.last_update_time := by
  intro states
  induction states with
  | nil =>
    intro s1 h id cst hm
    simp only [detect_pass] at h
    cases h
    simp at hm
  | cons hd rest ih =>
    intro s1 h id cst hm
    obtain ⟨id0, s⟩ := hd
    simp only [detect_pass] at h
    by_cases hcc : s.charger.can_charge
    · rw [if_pos hcc] at h
      cases hdet : detect_manual_override s with
      | error e =>
        rw [hdet] at h
        simp [bind, Except.bind, Except.map] at h
      | ok sb =>
        obtain ⟨sd, b⟩ := sb
        rw [hdet] at h
        simp only [bind, Except.bind, Except.map] at h
        cases hrest : detect_pass rest with
        | error e => rw [hrest] at h; simp at h
        | ok rest1 =>
          rw [hrest] at h
          simp only at h
          cases h
          rw [List.mem_cons] at hm
          cases hm with
          | inl he =>
            simp only [Prod.mk.injEq] at he
            obtain ⟨-, -, hlut, -⟩ := detect_props s sd b hdet
            refine ⟨s, ?_, ?_⟩
            · rw [he.1]
              exact List.mem_cons_self _ _
            · rw [he.2]
              exact hlut
          | inr hm2 =>
            obtain ⟨cst0, hm0, he⟩ := ih rest1 hrest id cst hm2
            exact ⟨cst0, List.mem_cons_of_mem _ hm0, he⟩
    · rw [if_neg hcc] at h
      simp only [pure, Except.pure, bind, Except.bind] at h
      cases hrest : detect_pass rest with
      | error e => rw [hrest] at h; simp at h
      | ok rest1 =>
        rw [hrest] at h
        simp only at h
        cases h
        rw [List.mem_cons] at hm
        cases hm with
        | inl he =>
          simp only [Prod.mk.injEq] at he
          refine ⟨s, ?_, ?_⟩
          · rw [he.1]
            exact List.mem_cons_self _ _
          · rw [he.2]
        | inr hm2 =>
          obtain ⟨cst0, hm0, he⟩ := ih rest1 hrest id cst hm2
          exact ⟨cst0, List.mem_cons_of_mem _ hm0, he⟩

/-- Every charger state present after the result pass either was stamped with
the call time py_int now or keeps the timestamp of an incoming entry. -/
theorem apply_results_entries (now : ℚ) : ∀ (alloc : Result) (states : States)
    (res : Result) (s_out : States),
    apply_results now alloc states = .ok (res, s_out) →
    ∀ (id : CId) (cst : ChargerState), (id, cst) ∈ s_out →
      cst.last_update_time = py_int now ∨
        ∃ cst0, (id, cst0) ∈ states ∧ cst.last_update_time = cst0.last_update_time := by
  intro alloc
  induction alloc with
  | nil =>
    intro states res s_out h id cst hm
    simp only [apply_results] at h
    cases h
    exact Or.inr ⟨cst, hm, rfl⟩
  | cons hd rest ih =>
    intro states res s_out h id cst hm
    obtain ⟨id0, nl⟩ := hd
    simp only [apply_results] at h
    cases hst : dget states id0 with
    | none => rw [hst] at h; cases h
    | some st =>
      rw [hst] at h
      dsimp only at h
      cases hcs : truthyD st.charger.current_limit with
      | none =>
        rw [hcs] at h
        dsimp only at h
        exact ih states res s_out h id cst hm
      | some cs =>
        rw [hcs] at h
        dsimp only at h
        cases hhc : has_changes_for st cs nl with
        | error e =>
          rw [hhc] at h
          simp [bind, Except.bind] at h
        | ok hc =>
          rw [hhc] at h
          simp only [bind, Except.bind] at h
          cases hc with
          | false =>
            simp only [Bool.false_eq_true, if_false] at h
            exact ih states res s_out h id cst hm
          | true =>
            simp only [if_true] at h
            split at h
            · cases h
            · rename_i v hrec
              obtain ⟨r1, s1⟩ := v
              simp only [Except.ok.injEq, Prod.mk.injEq] at h
              obtain ⟨-, h2⟩ := h
              subst h2
              cases ih _ _ _ hrec id cst hm with
              | inl h3 => exact Or.inl h3
              | inr h3 =>
                obtain ⟨cst0, hm0, he⟩ := h3
                cases mem_dset hm0 with
                | inl h4 => exact Or.inr ⟨cst0, h4, he⟩
                | inr h4 =>
                  obtain ⟨-, h5⟩ := h4
                  subst h5
                  exact Or.inl he

/-- C10: in the source both update_allocation and compute_availability declare
`now: float = time()`, so the default is the time() value captured once when
the defining module was loaded.  Modelled by the captured constant T of
update_allocation_default and compute_availability_default: a no-argument
compute_availability call leaves last_compute = T, so a second no-argument
call computes elapsed = T - T = 0 wall-clock seconds regardless of the real
interval; and every charger-state timestamp written by a no-argument
update_allocation call is the same fixed py_int T. -/
theorem c10_default_now (T : ℚ) :
    (∀ (P : OLBParams) (st : BState) (avail maxl : List (Phase × ℚ))
        (out : List (Phase × ℚ)) (st' : BState),
      compute_availability_default T P st avail maxl = .ok (out, st') →
      elapsed_for st' T = 0) ∧
    (∀ (states : States) (avail : List (Phase × ℤ)) (r : Result) (s' : States)
        (id : CId) (cst : ChargerState),
      update_allocation_default T states avail = .ok (r, s') →
      (id, cst) ∈ s' →
      cst.last_update_time = py_int T ∨
        ∃ cst0, (id, cst0) ∈ states ∧ cst.last_update_time = cst0.last_update_time) := by
  constructor
  · intro P st avail maxl out st' h
    have := compute_availability_last_compute P st avail maxl T out st' h
    unfold elapsed_for
    rw [this, sub_self]
  · intro states avail r s' id cst h hm
    unfold update_allocation_default update_allocation at h
    by_cases hact : active_chargers states = []
    · rw [if_pos hact] at h
      simp only [Except.ok.injEq, Prod.mk.injEq] at h
      obtain ⟨-, h2⟩ := h
      subst h2
      exact Or.inr ⟨cst, hm, rfl⟩
    · rw [if_neg hact] at h
      cases hdp : detect_pass states with
      | error e => rw [hdp] at h; simp [bind, Except.bind] at h
      | ok s1 =>
        rw [hdp] at h
        simp only [bind, Except.bind] at h
        cases hal : allocate_current s1 avail [] with
        | error e => rw [hal] at h; simp at h
        | ok alloc =>
          rw [hal] at h
          simp only at h
          cases apply_results_entries T alloc s1 r s' h id cst hm with
          | inl h2 => exact Or.inl h2
          | inr h2 =>
            obtain ⟨cst0, hm0, he⟩ := h2
            obtain ⟨cst1, hm1, he1⟩ := detect_pass_entries states s1 hdp id cst0 hm0
            exact Or.inr ⟨cst1, hm1, he.trans he1⟩

/-- Witness for C10: a no-argument cut cycle at captured module-load time 5
stamps the charger's last_update_time with py_int 5. -/
theorem c10_default_now_witness :
    c10After.last_update_time = py_int 5 ∨
    ∃ cst0, ((1 : CId), cst0) ∈ [((1 : CId), c10Charger)] ∧
      c10After.last_update_time = cst0.last_update_time :=
  (c10_default_now 5).2 [(1, c10Charger)] [(Phase.l1, -5)] [(1, [(Phase.l1, 11)])]
    [(1, c10After)] 1 c10After
    (by norm_num [update_allocation_default, update_allocation, active_chargers,
      c10Charger, c10After, detect_pass, detect_manual_override, truthyD,
      any_current_differs, dget, allocate_current, distribute_cuts,
      collect_phase_currents, apply_cuts, cut_for, dset, sumSnd, apply_results,
      has_changes_for, any_limit_differs, Except.map, Except.bind, bind, pure,
      Except.pure, py_int, List.filter, List.cons_ne_nil])
    (by simp)

/-! Claim C7: the cumulative trip risk never goes below zero. -/

/-- The risk-accrual rate is nonnegative for a nonnegative threshold. -/
theorem calculate_trip_risk_nonneg (P : OLBParams) (pct : ℚ)
    (h : 0 ≤ P.trip_risk_threshold) : 0 ≤ calculate_trip_risk P pct := by
  unfold calculate_trip_risk
  split_ifs <;> [skip; skip; skip; exact h] <;> positivity

/-- The first pass keeps every phase's cumulative risk nonnegative when the
elapsed time and the threshold are nonnegative. -/
theorem first_pass_risk_nonneg (P : OLBParams) (e now : ℚ) (maxl : List (Phase × ℚ))
    (he : 0 ≤ e) (ht : 0 ≤ P.trip_risk_threshold) :
    ∀ (items : List (Phase × ℚ)) (acc acc' : FPAcc),
      first_pass P e now maxl items acc = .ok acc' →
      (∀ q, 0 ≤ acc.st.cumulative_trip_risk q) →
      ∀ q, 0 ≤ acc'.st.cumulative_trip_risk q := by
  intro items
  induction items with
  | nil =>
    intro acc acc' h hpre q
    simp only [first_pass] at h
    cases h
    exact hpre q
  | cons hd rest ih =>
    intro acc acc' h hpre q
    obtain ⟨ph, av⟩ := hd
    simp only [first_pass] at h
    cases hml : dget maxl ph with
    | none => rw [hml] at h; cases h
    | some ml =>
      rw [hml] at h
      dsimp only at h
      by_cases hav : av < 0
      · rw [if_pos hav] at h
        by_cases hz : ml = 0
        · rw [if_pos hz] at h; cases h
        · rw [if_neg hz] at h
          by_cases hcross : acc.st.cumulative_trip_risk ph +
              calculate_trip_risk P (|av| / ml) * e ≥ P.trip_risk_threshold
          · rw [if_pos hcross] at h
            refine ih _ _ h (fun q2 => ?_) q
            simp only [pupd]
            by_cases hq : q2 = ph
            · rw [if_pos hq]
            · rw [if_neg hq]
              exact hpre q2
          · rw [if_neg hcross] at h
            refine ih _ _ h (fun q2 => ?_) q
            simp only [pupd]
            by_cases hq : q2 = ph
            · rw [if_pos hq]
              exact add_nonneg (hpre ph)
                (mul_nonneg (calculate_trip_risk_nonneg P _ ht) he)
            · rw [if_neg hq]
              exact hpre q2
      · rw [if_neg hav] at h
        refine ih _ _ h (fun q2 => ?_) q
        simp only [pupd]
        by_cases hq : q2 = ph
        · rw [if_pos hq]
          exact le_max_left 0 _
        · rw [if_neg hq]
          exact hpre q2

/-- The second pass never touches the cumulative trip risk. -/
theorem second_pass_risk_eq (P : OLBParams) (now : ℚ) :
    ∀ (items : List (Phase × ℚ)) (nl : List (Phase × ℚ)) (st : BState)
      (nl' : List (Phase × ℚ)) (st' : BState),
      second_pass P now items (nl, st) = .ok (nl', st') →
      st'.cumulative_trip_risk = st.cumulative_trip_risk := by
  intro items
  induction items with
  | nil =>
    intro nl st nl' st' h
    simp only [second_pass] at h
    cases h
    rfl
  | cons hd rest ih =>
    intro nl st nl' st' h
    obtain ⟨q, av⟩ := hd
    simp only [second_pass] at h
    by_cases helig : now - st.last_adjustment_time q ≥ P.recovery_window * (4 / 5)
    · rw [if_pos helig] at h
      cases hmq : medianE (st.recovery_current_history q) with
      | error e => rw [hmq] at h; simp [bind, Except.bind] at h
      | ok mv =>
        rw [hmq] at h
        simp only [bind, Except.bind] at h
        have h2 := ih _ _ _ _ h
        exact h2.trans rfl
    · rw [if_neg helig] at h
      exact ih _ _ _ _ h

/-- One successful compute_availability call preserves risk nonnegativity for
chronological time. -/
theorem compute_availability_risk_nonneg (P : OLBParams) (st : BState)
    (avail maxl : List (Phase × ℚ)) (now : ℚ) (out : List (Phase × ℚ)) (st' : BState)
    (he : st.last_compute ≤ now) (ht : 0 ≤ P.trip_risk_threshold)
    (hpre : ∀ q, 0 ≤ st.cumulative_trip_risk q)
    (hok : compute_availability P st avail maxl now = .ok (out, st')) :
    ∀ q, 0 ≤ st'.cumulative_trip_risk q := by
  rw [compute_availability_eq] at hok
  cases hfp : first_pass P (now - st.last_compute) now maxl avail
      { newLimits := [], ready := [], st := st } with
  | error e => rw [hfp] at hok; cases hok
  | ok acc =>
    rw [hfp] at hok
    simp only at hok
    have hacc : ∀ q, 0 ≤ acc.st.cumulative_trip_risk q :=
      first_pass_risk_nonneg P (now - st.last_compute) now maxl
        (by linarith) ht avail _ acc hfp hpre
    by_cases hr : acc.ready = []
    · rw [if_pos hr] at hok
      simp only [Except.ok.injEq, Prod.mk.injEq] at hok
      obtain ⟨-, h2⟩ := hok
      subst h2
      exact hacc
    · rw [if_neg hr] at hok
      cases hsp : second_pass P now avail (acc.newLimits, acc.st) with
      | error e => rw [hsp] at hok; cases hok
      | ok y =>
        rw [hsp] at hok
        obtain ⟨nl1, st1⟩ := y
        simp only [Except.ok.injEq, Prod.mk.injEq] at hok
        obtain ⟨-, h2⟩ := hok
        subst h2
        intro q
        have := second_pass_risk_eq P now avail acc.newLimits acc.st nl1 st1 hsp
        show 0 ≤ st1.cumulative_trip_risk q
        rw [this]
        exact hacc q

/-- A chronological run of compute_availability calls keeps every phase's
risk nonnegative. -/
theorem run_balancer_risk_nonneg (P : OLBParams) (ht : 0 ≤ P.trip_risk_threshold) :
    ∀ (calls : List BCall) (st st' : BState),
      chronological st.last_compute calls →
      (∀ q, 0 ≤ st.cumulative_trip_risk q) →
      run_balancer P st calls = .ok st' →
      ∀ q, 0 ≤ st'.cumulative_trip_risk q := by
  intro calls
  induction calls with
  | nil =>
    intro st st' hchron hpre h
    simp only [run_balancer] at h
    cases h
    exact hpre
  | cons c rest ih =>
    intro st st' hchron hpre h
    simp only [run_balancer] at h
    cases hc : compute_availability P st c.avail c.maxl c.now with
    | error e => rw [hc] at h; simp [bind, Except.bind] at h
    | ok y =>
      rw [hc] at h
      obtain ⟨out1, st1⟩ := y
      simp only [bind, Except.bind] at h
      obtain ⟨h1, h2⟩ := hchron
      have hst1 : ∀ q, 0 ≤ st1.cumulative_trip_risk q :=
        compute_availability_risk_nonneg P st c.avail c.maxl c.now out1 st1 h1 ht hpre hc
      have hlc : st1.last_compute = c.now :=
        compute_availability_last_compute P st c.avail c.maxl c.now out1 st1 hc
      exact ih st1 st' (hlc ▸ h2) hst1 h

/-- C7: for any chronological sequence of inputs processed from a fresh
balancer, the accumulated trip-risk score of every phase is nonnegative after
every call (every prefix of a chronological trace is itself a chronological
trace, so this covers each intermediate state): risk only grows during
overcurrent and its decay during headroom is floored at 0. -/
theorem c7_risk_nonneg (P : OLBParams) (calls : List BCall) (p : Phase) (r : ℚ)
    (ht : 0 ≤ P.trip_risk_threshold)
    (hchron : chronological 0 calls)
    (hok : (run_balancer P initBState calls).map
      (fun s => s.cumulative_trip_risk p) = .ok r) :
    0 ≤ r := by
  cases hrb : run_balancer P initBState calls with
  | error e => rw [hrb] at hok; simp [Except.map] at hok
  | ok st' =>
    rw [hrb] at hok
    simp only [Except.map, Except.ok.injEq] at hok
    subst hok
    exact run_balancer_risk_nonneg P ht calls initBState st' hchron
      (fun q => le_refl 0) hrb p

/-- Witness for C7: overcurrent at now = 10 accrues risk 20, headroom at
now = 20 decays 10 of it, leaving risk 10 which is nonnegative. -/
theorem c7_risk_nonneg_witness : (0 : ℚ) ≤ 10 :=
  c7_risk_nonneg defaultOLBParams
    [{ avail := [(Phase.l1, -5)], maxl := [(Phase.l1, 32)], now := 10 },
     { avail := [(Phase.l1, 5)], maxl := [(Phase.l1, 32)], now := 20 }]
    Phase.l1 10
    (by norm_num [defaultOLBParams])
    (by norm_num [chronological])
    (by norm_num [run_balancer, compute_availability, first_pass, second_pass,
      initBState, defaultOLBParams, dget, dset, pupd, py_int, dequeAppend,
      calculate_trip_risk, is_stable_recovery, is_consistent, pvariance, Except.map,
      Except.bind, bind, pure, Except.pure, List.cons_ne_nil, Int.toNat_ofNat])

/-! Claim C9: exception behaviour of update_allocation. -/

/-- A present key makes dget succeed. -/
theorem mem_dget_isSome {κ α : Type} [DecidableEq κ] {d : List (κ × α)} {k : κ} {v : α}
    (h : (k, v) ∈ d) : (dget d k).isSome := by
  induction d with
  | nil => simp at h
  | cons hd t ih =>
    simp only [dget]
    by_cases hk : hd.1 = k
    · rw [if_pos hk]
      rfl
    · rw [if_neg hk]
      cases h with
      | head => exact absurd rfl hk
      | tail _ h2 => exact ih h2

/-- dget after dset stays defined for every key that was defined or was set. -/
theorem dget_dset_isSome {κ α : Type} [DecidableEq κ] (d : List (κ × α)) (k k' : κ)
    (v : α) (h : (dget d k').isSome ∨ k' = k) : (dget (dset d k v) k').isSome := by
  cases h with
  | inl h2 =>
    by_cases hk : k = k'
    · subst hk
      rw [dget_dset_self]
      rfl
    · rw [dget_dset_ne _ _ _ _ hk]
      exact h2
  | inr h2 =>
    subst h2
    rw [dget_dset_self]
    rfl

/-- The override scan succeeds whenever the last-set dict binds every phase. -/
theorem any_current_differs_ok (last : PD) (hf : full last) :
    ∀ (items : List (Phase × ℤ)), ∃ b, any_current_differs last items = .ok b := by
  intro items
  induction items with
  | nil => exact ⟨false, rfl⟩
  | cons hd rest ih =>
    obtain ⟨p, v⟩ := hd
    simp only [any_current_differs]
    cases hw : dget last p with
    | none =>
      have := hf p
      rw [dhasKey, hw] at this
      simp at this
    | some w =>
      by_cases hv : v ≠ w
      · refine ⟨true, ?_⟩
        dsimp only
        rw [if_pos hv]
      · obtain ⟨b, hb⟩ := ih
        refine ⟨b, ?_⟩
        dsimp only
        rw [if_neg hv]
        exact hb

/-- Override detection succeeds on a full charger state and preserves
fullness and the charger reference. -/
theorem detect_ok (st : ChargerState) (hf : full_state st) :
    ∃ s1 b, detect_manual_override st = .ok (s1, b) ∧ full_state s1 ∧
      s1.charger = st.charger := by
  obtain ⟨hf1, hf2, hf3⟩ := hf
  unfold detect_manual_override
  cases hcur : truthyD st.charger.current_limit with
  | none => exact ⟨st, false, by dsimp only, ⟨hf1, hf2, hf3⟩, rfl⟩
  | some cur =>
    cases hlast : truthyD st.last_set_current with
    | none => exact ⟨st, false, by dsimp only, ⟨hf1, hf2, hf3⟩, rfl⟩
    | some last =>
      have hfl : full last := hf2 last (truthyD_eq_some hlast)
      obtain ⟨b, hb⟩ := any_current_differs_ok last hfl cur
      cases b with
      | false =>
        refine ⟨st, false, ?_, ⟨hf1, hf2, hf3⟩, rfl⟩
        dsimp only
        rw [hb]
        simp [bind, Except.bind]
      | true =>
        refine ⟨⟨st.charger, some cur, st.last_set_current, st.last_update_time, true⟩,
          true, ?_, ?_, rfl⟩
        · dsimp only
          rw [hb]
          simp [bind, Except.bind]
        · refine ⟨hf1, hf2, ?_⟩
          intro d hd
          cases hd
          exact hf1 cur (truthyD_eq_some hcur)

/-- The detect pass succeeds on full states, preserving the key list,
fullness and each charger reference. -/
theorem detect_pass_ok : ∀ (states : States),
    (∀ e ∈ states, full_state e.2) →
    ∃ s1, detect_pass states = .ok s1 ∧ (∀ e ∈ s1, full_state e.2) ∧
      s1.map Prod.fst = states.map Prod.fst ∧
      (∀ e ∈ s1, ∃ st0, (e.1, st0) ∈ states ∧ e.2.charger = st0.charger) := by
  intro states
  induction states with
  | nil => exact fun _ => ⟨[], rfl, by simp, rfl, by simp⟩
  | cons hd rest ih =>
    intro hf
    obtain ⟨id, s⟩ := hd
    have hfs : full_state s := hf (id, s) (List.mem_cons_self _ _)
    obtain ⟨rest1, hr, hr2, hr3, hr4⟩ :=
      ih (fun e he => hf e (List.mem_cons_of_mem _ he))
    by_cases hcc : s.charger.can_charge
    · obtain ⟨s1, b, hdet, hfull1, hch⟩ := detect_ok s hfs
      refine ⟨(id, s1) :: rest1, ?_, ?_, ?_, ?_⟩
      · simp only [detect_pass]
        rw [if_pos hcc, hdet, hr]
        simp [bind, Except.bind, Except.map]
      · intro e he
        cases he with
        | head => exact hfull1
        | tail _ he2 => exact hr2 e he2
      · simp only [List.map_cons, hr3]
      · intro e he
        cases he with
        | head => exact ⟨s, List.mem_cons_self _ _, hch⟩
        | tail _ he2 =>
          obtain ⟨st0, hm0, he0⟩ := hr4 e he2
          exact ⟨st0, List.mem_cons_of_mem _ hm0, he0⟩
    · refine ⟨(id, s) :: rest1, ?_, ?_, ?_, ?_⟩
      · simp only [detect_pass]
        rw [if_neg hcc, hr]
        simp [bind, Except.bind, pure, Except.pure]
      · intro e he
        cases he with
        | head => exact hfs
        | tail _ he2 => exact hr2 e he2
      · simp only [List.map_cons, hr3]
      · intro e he
        cases he with
        | head => exact ⟨s, List.mem_cons_self _ _, rfl⟩
        | tail _ he2 =>
          obtain ⟨st0, hm0, he0⟩ := hr4 e he2
          exact ⟨st0, List.mem_cons_of_mem _ hm0, he0⟩

/-- The cut collection succeeds when every reported limit dict is full, and
every collected charger is an entry with a truthy reported limit. -/
theorem collect_phase_currents_ok (q : Phase) : ∀ (sts : States),
    (∀ e ∈ sts, fullOpt e.2.charger.current_limit) →
    ∃ l, collect_phase_currents q sts = .ok l ∧
      ∀ x ∈ l, ∃ st', (x.1, st') ∈ sts ∧
        ∃ dd, truthyD st'.charger.current_limit = some dd := by
  intro sts
  induction sts with
  | nil => exact fun _ => ⟨[], rfl, by simp⟩
  | cons hd rest ih =>
    intro hf
    obtain ⟨id, s⟩ := hd
    obtain ⟨l, hl, hl2⟩ := ih (fun e he => hf e (List.mem_cons_of_mem _ he))
    simp only [collect_phase_currents]
    cases hcs : truthyD s.charger.current_limit with
    | none =>
      refine ⟨l, hl, ?_⟩
      intro x hx
      obtain ⟨st', hm, hdd⟩ := hl2 x hx
      exact ⟨st', List.mem_cons_of_mem _ hm, hdd⟩
    | some d =>
      cases hc : dget d q with
      | none =>
        have hfd : full d :=
          hf (id, s) (List.mem_cons_self _ _) d (truthyD_eq_some hcs)
        have := hfd q
        rw [dhasKey, hc] at this
        simp at this
      | some c =>
        refine ⟨(id, c) :: l, ?_, ?_⟩
        · simp [hc, hl, bind, Except.bind]
        · intro x hx
          cases hx with
          | head => exact ⟨s, List.mem_cons_self _ _, d, hcs⟩
          | tail _ hx2 =>
            obtain ⟨st', hm, hdd⟩ := hl2 x hx2
            exact ⟨st', List.mem_cons_of_mem _ hm, hdd⟩

/-- The increase collection succeeds when limit and requested dicts are full,
and every collected charger is an entry with a truthy reported limit. -/
theorem collect_potentials_ok (q : Phase) : ∀ (sts : States),
    (∀ e ∈ sts, fullOpt e.2.charger.current_limit ∧ fullOpt e.2.requested_current) →
    ∃ l, collect_potentials q sts = .ok l ∧
      ∀ x ∈ l, ∃ st', (x.1, st') ∈ sts ∧
        ∃ dd, truthyD st'.charger.current_limit = some dd := by
  intro sts
  induction sts with
  | nil => exact fun _ => ⟨[], rfl, by simp⟩
  | cons hd rest ih =>
    intro hf
    obtain ⟨id, s⟩ := hd
    obtain ⟨l, hl, hl2⟩ := ih (fun e he => hf e (List.mem_cons_of_mem _ he))
    have hmono : ∀ x ∈ l, ∃ st', (x.1, st') ∈ (id, s) :: rest ∧
        ∃ dd, truthyD st'.charger.current_limit = some dd := by
      intro x hx
      obtain ⟨st', hm, hdd⟩ := hl2 x hx
      exact ⟨st', List.mem_cons_of_mem _ hm, hdd⟩
    simp only [collect_potentials]
    cases hcs : truthyD s.charger.current_limit with
    | none => exact ⟨l, hl, hmono⟩
    | some d =>
      cases hrq : truthyD s.requested_current with
      | none => exact ⟨l, hl, hmono⟩
      | some rq =>
        cases hc : dget d q with
        | none =>
          have hfd : full d :=
            (hf (id, s) (List.mem_cons_self _ _)).1 d (truthyD_eq_some hcs)
          have := hfd q
          rw [dhasKey, hc] at this
          simp at this
        | some c =>
          cases hr : dget rq q with
          | none =>
            have hfr : full rq :=
              (hf (id, s) (List.mem_cons_self _ _)).2 rq (truthyD_eq_some hrq)
            have := hfr q
            rw [dhasKey, hr] at this
            simp at this
          | some r =>
            by_cases hrc : r > c
            · refine ⟨(id, r - c) :: l, ?_, ?_⟩
              · simp [hc, hr, hrc, hl, bind, Except.bind]
              · intro x hx
                cases hx with
                | head => exact ⟨s, List.mem_cons_self _ _, d, hcs⟩
                | tail _ hx2 => exact hmono x hx2
            · refine ⟨l, ?_, hmono⟩
              simp [hc, hr, hrc, hl, bind, Except.bind]

/-- dset keeps the registry lookups of a result defined. -/
theorem dset_pres_isSome (sts : States) (res : Result) (id : CId) (w : PD)
    (hres : ∀ e ∈ res, (dget sts e.1).isSome) (hid : (dget sts id).isSome) :
    ∀ e ∈ dset res id w, (dget sts e.1).isSome := by
  intro e he
  cases mem_dset he with
  | inl h2 => exact hres e h2
  | inr h2 =>
    rw [h2.1]
    exact hid

/-- The cut write-back loop succeeds when every listed charger is a registry
entry with a truthy reported limit and all limit dicts are full. -/
theorem apply_cuts_ok (sts : States) (q : Phase) (dq tot : ℤ)
    (hnd : (sts.map Prod.fst).Nodup)
    (hfl : ∀ e ∈ sts, fullOpt e.2.charger.current_limit) :
    ∀ (l : List (CId × ℤ)) (res : Result),
      (∀ x ∈ l, ∃ st', (x.1, st') ∈ sts ∧
        ∃ dd, truthyD st'.charger.current_limit = some dd) →
      (∀ e ∈ res, (dget sts e.1).isSome) →
      ∃ res', apply_cuts sts q dq tot l res = .ok res' ∧
        ∀ e ∈ res', (dget sts e.1).isSome := by
  intro l
  induction l with
  | nil =>
    intro res _ hres
    exact ⟨res, rfl, hres⟩
  | cons hd rest ih =>
    intro res hl hres
    obtain ⟨id, c⟩ := hd
    obtain ⟨st', hmem, dd, hdd⟩ := hl (id, c) (List.mem_cons_self _ _)
    have hdget : dget sts id = some st' := dget_of_mem_nodup hmem hnd
    have hlim : st'.charger.current_limit = some dd := truthyD_eq_some hdd
    have hfdd : full dd := hfl (id, st') hmem dd hlim
    have hcpS : (dget dd q).isSome := hfdd q
    obtain ⟨cp, hcp⟩ := Option.isSome_iff_exists.mp hcpS
    have hidS : (dget sts id).isSome := by rw [hdget]; rfl
    simp only [apply_cuts]
    rw [hdget]
    dsimp only
    rw [hlim]
    dsimp only
    cases hre : dget res id with
    | none =>
      have hres1 : ∀ e ∈ dset res id dd, (dget sts e.1).isSome :=
        dset_pres_isSome sts res id dd hres hidS
      rw [hcp]
      dsimp only
      rw [dget_dset_self]
      dsimp only
      obtain ⟨res', hr, hr2⟩ := ih
        (dset (dset res id dd) id (dset dd q (max 0 (cp + cut_for dq tot c))))
        (fun x hx => hl x (List.mem_cons_of_mem _ hx))
        (dset_pres_isSome sts _ id _ hres1 hidS)
      exact ⟨res', hr, hr2⟩
    | some e0 =>
      rw [hcp]
      dsimp only
      rw [hre]
      dsimp only
      obtain ⟨res', hr, hr2⟩ := ih
        (dset res id (dset e0 q (max 0 (cp + cut_for dq tot c))))
        (fun x hx => hl x (List.mem_cons_of_mem _ hx))
        (dset_pres_isSome sts _ id _ hres hidS)
      exact ⟨res', hr, hr2⟩

/-- The increase write-back loop succeeds under the same conditions. -/
theorem apply_increases_ok (sts : States) (q : Phase) (sp tot : ℤ)
    (hnd : (sts.map Prod.fst).Nodup)
    (hfl : ∀ e ∈ sts, fullOpt e.2.charger.current_limit) :
    ∀ (l : List (CId × ℤ)) (res : Result),
      (∀ x ∈ l, ∃ st', (x.1, st') ∈ sts ∧
        ∃ dd, truthyD st'.charger.current_limit = some dd) →
      (∀ e ∈ res, (dget sts e.1).isSome) →
      ∃ res', apply_increases sts q sp tot l res = .ok res' ∧
        ∀ e ∈ res', (dget sts e.1).isSome := by
  intro l
  induction l with
  | nil =>
    intro res _ hres
    exact ⟨res, rfl, hres⟩
  | cons hd rest ih =>
    intro res hl hres
    obtain ⟨id, pot⟩ := hd
    obtain ⟨st', hmem, dd, hdd⟩ := hl (id, pot) (List.mem_cons_self _ _)
    have hdget : dget sts id = some st' := dget_of_mem_nodup hmem hnd
    have hlim : st'.charger.current_limit = some dd := truthyD_eq_some hdd
    have hfdd : full dd := hfl (id, st') hmem dd hlim
    obtain ⟨cp, hcp⟩ := Option.isSome_iff_exists.mp (hfdd q)
    have hidS : (dget sts id).isSome := by rw [hdget]; rfl
    simp only [apply_increases]
    rw [hdget]
    dsimp only
    rw [hlim]
    dsimp only
    cases hre : dget res id with
    | none =>
      have hres1 : ∀ e ∈ dset res id dd, (dget sts e.1).isSome :=
        dset_pres_isSome sts res id dd hres hidS
      rw [hcp]
      dsimp only
      rw [dget_dset_self]
      dsimp only
      obtain ⟨res', hr, hr2⟩ := ih
        (dset (dset res id dd) id (dset dd q (cp + py_int (increase_for sp tot pot))))
        (fun x hx => hl x (List.mem_cons_of_mem _ hx))
        (dset_pres_isSome sts _ id _ hres1 hidS)
      exact ⟨res', hr, hr2⟩
    | some e0 =>
      rw [hcp]
      dsimp only
      rw [hre]
      dsimp only
      obtain ⟨res', hr, hr2⟩ := ih
        (dset res id (dset e0 q (cp + py_int (increase_for sp tot pot))))
        (fun x hx => hl x (List.mem_cons_of_mem _ hx))
        (dset_pres_isSome sts _ id _ hres hidS)
      exact ⟨res', hr, hr2⟩

/-- _distribute_cuts never raises on a registry of full charger states. -/
theorem distribute_cuts_ok (sts : States) (q : Phase) (dq : ℤ)
    (hnd : (sts.map Prod.fst).Nodup)
    (hfl : ∀ e ∈ sts, fullOpt e.2.charger.current_limit)
    (res : Result) (hres : ∀ e ∈ res, (dget sts e.1).isSome) :
    ∃ res', distribute_cuts sts q dq res = .ok res' ∧
      ∀ e ∈ res', (dget sts e.1).isSome := by
  obtain ⟨l, hl, hl2⟩ := collect_phase_currents_ok q (active_chargers sts)
    (fun e he => hfl e (List.mem_of_mem_filter he))
  have hl2' : ∀ x ∈ l, ∃ st', (x.1, st') ∈ sts ∧
      ∃ dd, truthyD st'.charger.current_limit = some dd := by
    intro x hx
    obtain ⟨st', hm, hdd⟩ := hl2 x hx
    exact ⟨st', List.mem_of_mem_filter hm, hdd⟩
  unfold distribute_cuts
  rw [hl]
  simp only [bind, Except.bind]
  by_cases hz : sumSnd l = 0
  · rw [if_pos hz]
    exact ⟨res, rfl, hres⟩
  · rw [if_neg hz]
    exact apply_cuts_ok sts q dq (sumSnd l) hnd hfl l res hl2' hres

/-- _distribute_increases never raises on a registry of full charger states. -/
theorem distribute_increases_ok (sts : States) (q : Phase) (sp : ℤ)
    (hnd : (sts.map Prod.fst).Nodup)
    (hfl : ∀ e ∈ sts, fullOpt e.2.charger.current_limit)
    (hfr : ∀ e ∈ sts, fullOpt e.2.requested_current)
    (res : Result) (hres : ∀ e ∈ res, (dget sts e.1).isSome) :
    ∃ res', distribute_increases sts q sp res = .ok res' ∧
      ∀ e ∈ res', (dget sts e.1).isSome := by
  obtain ⟨l, hl, hl2⟩ := collect_potentials_ok q (active_chargers sts)
    (fun e he => ⟨hfl e (List.mem_of_mem_filter he), hfr e (List.mem_of_mem_filter he)⟩)
  have hl2' : ∀ x ∈ l, ∃ st', (x.1, st') ∈ sts ∧
      ∃ dd, truthyD st'.charger.current_limit = some dd := by
    intro x hx
    obtain ⟨st', hm, hdd⟩ := hl2 x hx
    exact ⟨st', List.mem_of_mem_filter hm, hdd⟩
  unfold distribute_increases
  rw [hl]
  simp only [bind, Except.bind]
  by_cases hz : sumSnd l = 0
  · rw [if_pos hz]
    exact ⟨res, rfl, hres⟩
  · rw [if_neg hz]
    exact apply_increases_ok sts q sp (sumSnd l) hnd hfl l res hl2' hres

/-- The full allocation pass never raises on a registry of full states. -/
theorem allocate_current_ok (sts : States)
    (hnd : (sts.map Prod.fst).Nodup)
    (hfl : ∀ e ∈ sts, fullOpt e.2.charger.current_limit)
    (hfr : ∀ e ∈ sts, fullOpt e.2.requested_current) :
    ∀ (items : List (Phase × ℤ)) (res : Result),
      (∀ e ∈ res, (dget sts e.1).isSome) →
      ∃ res', allocate_current sts items res = .ok res' ∧
        ∀ e ∈ res', (dget sts e.1).isSome := by
  intro items
  induction items with
  | nil =>
    intro res hres
    exact ⟨res, rfl, hres⟩
  | cons hd rest ih =>
    intro res hres
    obtain ⟨q, a⟩ := hd
    simp only [allocate_current]
    by_cases ha : a < 0
    · rw [if_pos ha]
      obtain ⟨res1, hr1, hr2⟩ := distribute_cuts_ok sts q a hnd hfl res hres
      rw [hr1]
      simp only [bind, Except.bind]
      exact ih res1 hr2
    · rw [if_neg ha]
      by_cases ha2 : a > 0
      · rw [if_pos ha2]
        obtain ⟨res1, hr1, hr2⟩ := distribute_increases_ok sts q a hnd hfl hfr res hres
        rw [hr1]
        simp only [bind, Except.bind]
        exact ih res1 hr2
      · rw [if_neg ha2]
        simp only [bind, Except.bind]
        exact ih res hres

/-- The non-synced change scan succeeds when the reported dict is full. -/
theorem any_limit_differs_ok (cs : PD) (hf : full cs) :
    ∀ (items : List (Phase × ℤ)), ∃ b, any_limit_differs cs items = .ok b := by
  intro items
  induction items with
  | nil => exact ⟨false, rfl⟩
  | cons hd rest ih =>
    obtain ⟨p, v⟩ := hd
    simp only [any_limit_differs]
    cases hw : dget cs p with
    | none =>
      have := hf p
      rw [dhasKey, hw] at this
      simp at this
    | some w =>
      by_cases hv : v ≠ w
      · refine ⟨true, ?_⟩
        dsimp only
        rw [if_pos hv]
      · obtain ⟨b, hb⟩ := ih
        refine ⟨b, ?_⟩
        dsimp only
        rw [if_neg hv]
        exact hb

/-- The has_changes test succeeds on a nonempty full reported dict. -/
theorem has_changes_ok (st : ChargerState) (cs : PD) (nl : PD)
    (hne : cs ≠ []) (hf : full cs) :
    ∃ b, has_changes_for st cs nl = .ok b := by
  unfold has_changes_for
  by_cases hs : st.charger.has_synced_phase_limits
  · rw [if_pos hs]
    obtain ⟨c0, cst⟩ := List.exists_cons_of_ne_nil hne
    obtain ⟨t, hcs⟩ := cst
    subst hcs
    cases nl with
    | nil => exact ⟨_, rfl⟩
    | cons n0 nt => exact ⟨_, rfl⟩
  · rw [if_neg hs]
    exact any_limit_differs_ok cs hf nl

/-- The result pass succeeds when every allocated id is in the registry and
every reported limit dict is full. -/
theorem apply_results_ok (now : ℚ) : ∀ (alloc : Result) (sts : States),
    (∀ e ∈ alloc, (dget sts e.1).isSome) →
    (∀ e ∈ sts, fullOpt e.2.charger.current_limit) →
    ∃ out, apply_results now alloc sts = .ok out := by
  intro alloc
  induction alloc with
  | nil => exact fun sts _ _ => ⟨([], sts), rfl⟩
  | cons hd rest ih =>
    intro sts hids hfl
    obtain ⟨id, nl⟩ := hd
    obtain ⟨st, hst⟩ := Option.isSome_iff_exists.mp
      (hids (id, nl) (List.mem_cons_self _ _))
    simp only [apply_results]
    rw [hst]
    dsimp only
    cases hcs : truthyD st.charger.current_limit with
    | none =>
      exact ih sts (fun e he => hids e (List.mem_cons_of_mem _ he)) hfl
    | some cs =>
      dsimp only
      have hlim : st.charger.current_limit = some cs := truthyD_eq_some hcs
      have hfcs : full cs := hfl (id, st) (dget_mem hst) cs hlim
      obtain ⟨b, hb⟩ := has_changes_ok st cs nl (truthyD_ne_nil hcs) hfcs
      rw [hb]
      simp only [bind, Except.bind]
      cases b with
      | false =>
        simp only [Bool.false_eq_true, if_false]
        exact ih sts (fun e he => hids e (List.mem_cons_of_mem _ he)) hfl
      | true =>
        simp only [if_true]
        have hids' : ∀ e ∈ rest, (dget (dset sts id
            ⟨st.charger, st.requested_current, some nl, py_int now, false⟩) e.1).isSome := by
          intro e he
          exact dget_dset_isSome sts id e.1 _
            (Or.inl (hids e (List.mem_cons_of_mem _ he)))
        have hfl' : ∀ e ∈ dset sts id
            (⟨st.charger, st.requested_current, some nl, py_int now, false⟩ : ChargerState),
            fullOpt e.2.charger.current_limit := by
          intro e he
          cases mem_dset he with
          | inl h2 => exact hfl e h2
          | inr h2 =>
            rw [h2.2]
            exact hfl (id, st) (dget_mem hst)
        obtain ⟨out, hout⟩ := ih _ hids' hfl'
        obtain ⟨r1, s1⟩ := out
        rw [hout]
        exact ⟨((id, nl) :: r1, s1), rfl⟩

/-- C9 counterexample: an active charger reporting a limit only for phase L1
crashes update_allocation with a KeyError when available_currents contains a
deficit on phase L2: the unknown phase is not ignored. -/
theorem c9_counterexample :
    update_allocation [(1, c9Charger)] [(Phase.l2, -5)] 0 = .error () := by decide

/-- C9 amended: update_allocation raises no exception provided the registry
keys are unique and every charger's reported limit, last-set and requested
dicts bind every phase whenever they are present; in particular a charger
whose adapter reports no current limit (current_limit = None) is tolerated
and simply skipped.  When an active charger reports a phase-incomplete dict,
a phase of available_currents missing from it raises KeyError (see the
counterexample), so phase mismatches are not ignored. -/
theorem c9_no_crash (states : States) (avail : List (Phase × ℤ)) (now : ℚ)
    (hnd : (states.map Prod.fst).Nodup)
    (hf : ∀ e ∈ states, full_state e.2) :
    ∃ out, update_allocation states avail now = .ok out := by
  unfold update_allocation
  by_cases hact : active_chargers states = []
  · rw [if_pos hact]
    exact ⟨([], states), rfl⟩
  · rw [if_neg hact]
    obtain ⟨s1, hdp, hfull1, hkeys, -⟩ := detect_pass_ok states hf
    have hnd1 : (s1.map Prod.fst).Nodup := hkeys ▸ hnd
    have hfl1 : ∀ e ∈ s1, fullOpt e.2.charger.current_limit :=
      fun e he => (hfull1 e he).1
    have hfr1 : ∀ e ∈ s1, fullOpt e.2.requested_current :=
      fun e he => (hfull1 e he).2.2
    obtain ⟨alloc, hal, hids⟩ := allocate_current_ok s1 hnd1 hfl1 hfr1 avail []
      (by simp)
    obtain ⟨out, hout⟩ := apply_results_ok now alloc s1 hids hfl1
    rw [hdp]
    simp only [bind, Except.bind]
    rw [hal]
    dsimp only
    exact ⟨out, hout⟩

/-- Witness for C9 amended: a three-phase reporting charger together with a
connected charger reporting no limit; a mixed availability map is processed
without an exception (the no-limit charger is skipped). -/
theorem c9_no_crash_witness :
    ∃ out, update_allocation [(1, c9Full), (2, c9NoLimit)]
      [(Phase.l1, -5), (Phase.l2, 3), (Phase.l3, 0)] 0 = .ok out :=
  c9_no_crash [(1, c9Full), (2, c9NoLimit)]
    [(Phase.l1, -5), (Phase.l2, 3), (Phase.l3, 0)] 0 (by decide) (by decide)


/-! Claim C4: recovery increases never push a charger above its request. -/

/-- Truncation toward zero never exceeds an integer bound that is nonnegative
and at least the truncated value. -/
theorem py_int_le_int (x : ℚ) (n : ℤ) (hn : 0 ≤ n) (hx : x ≤ (n : ℚ)) :
    py_int x ≤ n := by
  unfold py_int
  by_cases hneg : x < 0
  · rw [if_pos hneg]
    have h1 : (0 : ℤ) ≤ Int.floor (-x) := Int.floor_nonneg.mpr (by linarith)
    omega
  · rw [if_neg hneg]
    calc Int.floor x ≤ Int.floor ((n : ℚ)) := Int.floor_mono hx
      _ = n := Int.floor_intCast n

/-- The proportional increase is clamped to the potential by the min. -/
theorem increase_for_le (sp tot pot : ℤ) : increase_for sp tot pot ≤ (pot : ℚ) := by
  unfold increase_for
  exact min_le_right _ _

/-- The override pass preserves key order. -/
theorem detect_pass_keys : ∀ (states s1 : States), detect_pass states = .ok s1 →
    s1.map Prod.fst = states.map Prod.fst := by
  intro states
  induction states with
  | nil =>
    intro s1 h
    simp only [detect_pass] at h
    cases h
    rfl
  | cons hd0 rest ih =>
    intro s1 h
    obtain ⟨id0, s⟩ := hd0
    simp only [detect_pass] at h
    by_cases hcc : s.charger.can_charge
    · rw [if_pos hcc] at h
      cases hdm : detect_manual_override s with
      | error e => rw [hdm] at h; simp [bind, Except.bind, Except.map] at h
      | ok sb =>
        obtain ⟨sd, b0⟩ := sb
        rw [hdm] at h
        simp only [bind, Except.bind, Except.map] at h
        cases hrest : detect_pass rest with
        | error e => rw [hrest] at h; simp at h
        | ok rest1 =>
          rw [hrest] at h
          simp only at h
          cases h
          simp only [List.map_cons]
          rw [ih rest1 hrest]
    · rw [if_neg hcc] at h
      simp only [pure, Except.pure, bind, Except.bind] at h
      cases hrest : detect_pass rest with
      | error e => rw [hrest] at h; simp at h
      | ok rest1 =>
        rw [hrest] at h
        simp only at h
        cases h
        simp only [List.map_cons]
        rw [ih rest1 hrest]

/-- The override pass maps an active registry entry to the post-detection
state that detect_manual_override returns for it. -/
theorem detect_pass_dget : ∀ (states s1 : States), detect_pass states = .ok s1 →
    ∀ (id : CId) (st st1 : ChargerState) (b : Bool),
      dget states id = some st → st.charger.can_charge = true →
      detect_manual_override st = .ok (st1, b) → dget s1 id = some st1 := by
  intro states
  induction states with
  | nil =>
    intro s1 h id st st1 b hg hcc hdet
    simp [dget] at hg
  | cons hd0 rest ih =>
    intro s1 h id st st1 b hg hcc hdet
    obtain ⟨id0, s⟩ := hd0
    simp only [detect_pass] at h
    by_cases hcase : s.charger.can_charge
    · rw [if_pos hcase] at h
      cases hdm : detect_manual_override s with
      | error e => rw [hdm] at h; simp [bind, Except.bind, Except.map] at h
      | ok sb =>
        obtain ⟨sd, b0⟩ := sb
        rw [hdm] at h
        simp only [bind, Except.bind, Except.map] at h
        cases hrest : detect_pass rest with
        | error e => rw [hrest] at h; simp at h
        | ok rest1 =>
          rw [hrest] at h
          simp only at h
          cases h
          simp only [dget] at hg ⊢
          by_cases hid : id0 = id
          · rw [if_pos hid] at hg
            rw [if_pos hid]
            have hse : s = st := Option.some.inj hg
            rw [hse, hdet] at hdm
            simp only [Except.ok.injEq, Prod.mk.injEq] at hdm
            rw [hdm.1]
          · rw [if_neg hid] at hg
            rw [if_neg hid]
            exact ih rest1 hrest id st st1 b hg hcc hdet
    · rw [if_neg hcase] at h
      simp only [pure, Except.pure, bind, Except.bind] at h
      cases hrest : detect_pass rest with
      | error e => rw [hrest] at h; simp at h
      | ok rest1 =>
        rw [hrest] at h
        simp only at h
        cases h
        simp only [dget] at hg ⊢
        by_cases hid : id0 = id
        · rw [if_pos hid] at hg
          have hse : s = st := Option.some.inj hg
          rw [hse] at hcase
          exact absurd hcc hcase
        · rw [if_neg hid] at hg
          rw [if_neg hid]
          exact ih rest1 hrest id st st1 b hg hcc hdet

/-- Every collected potential is requested minus current for the phase, read
from some scanned entry with truthy limit and request dicts. -/
theorem collect_potentials_val (q : Phase) : ∀ (sts : States) (l : List (CId × ℤ)),
    collect_potentials q sts = .ok l →
    ∀ id pot, (id, pot) ∈ l →
      ∃ s2 d rq c r, (id, s2) ∈ sts ∧
        truthyD s2.charger.current_limit = some d ∧
        truthyD s2.requested_current = some rq ∧
        dget d q = some c ∧ dget rq q = some r ∧ pot = r - c := by
  intro sts
  induction sts with
  | nil =>
    intro l h id pot hm
    simp only [collect_potentials] at h
    injection h with h
    subst h
    simp at hm
  | cons hd0 rest ih =>
    intro l h id pot hm
    obtain ⟨id0, s⟩ := hd0
    simp only [collect_potentials, bind, Except.bind] at h
    cases hcs : truthyD s.charger.current_limit with
    | none =>
      rw [hcs] at h
      dsimp only at h
      obtain ⟨s2, d, rq, c, r, hm2, h1, h2, h3, h4, h5⟩ := ih l h id pot hm
      exact ⟨s2, d, rq, c, r, List.mem_cons_of_mem _ hm2, h1, h2, h3, h4, h5⟩
    | some d0 =>
      rw [hcs] at h
      cases hrq : truthyD s.requested_current with
      | none =>
        rw [hrq] at h
        dsimp only at h
        obtain ⟨s2, d, rq, c, r, hm2, h1, h2, h3, h4, h5⟩ := ih l h id pot hm
        exact ⟨s2, d, rq, c, r, List.mem_cons_of_mem _ hm2, h1, h2, h3, h4, h5⟩
      | some rq0 =>
        rw [hrq] at h
        dsimp only at h
        cases hc0 : dget d0 q with
        | none => rw [hc0] at h; cases h
        | some c0 =>
          rw [hc0] at h
          dsimp only at h
          cases hr0 : dget rq0 q with
          | none => rw [hr0] at h; cases h
          | some r0 =>
            rw [hr0] at h
            dsimp only at h
            by_cases hgt : r0 > c0
            · rw [if_pos hgt] at h
              cases hrest : collect_potentials q rest with
              | error e => rw [hrest] at h; cases h
              | ok lr =>
                rw [hrest] at h
                dsimp only at h
                injection h with h
                subst h
                rw [List.mem_cons] at hm
                cases hm with
                | inl he =>
                  simp only [Prod.mk.injEq] at he
                  refine ⟨s, d0, rq0, c0, r0, ?_, hcs, hrq, hc0, hr0, he.2⟩
                  rw [he.1]
                  exact List.mem_cons_self _ _
                | inr hm2 =>
                  obtain ⟨s2, d, rq, c, r, hm3, h1, h2, h3, h4, h5⟩ := ih lr hrest id pot hm2
                  exact ⟨s2, d, rq, c, r, List.mem_cons_of_mem _ hm3, h1, h2, h3, h4, h5⟩
            · rw [if_neg hgt] at h
              obtain ⟨s2, d, rq, c, r, hm2, h1, h2, h3, h4, h5⟩ := ih l h id pot hm
              exact ⟨s2, d, rq, c, r, List.mem_cons_of_mem _ hm2, h1, h2, h3, h4, h5⟩

/-- When the write-back loops look up a limits dict for the tracked charger,
it is the charger registry entry, so its value at p is the recorded c. -/
theorem val_of_limit_entry {sts : States} {id0 id : CId} {st0 st1 : ChargerState}
    {d cs0 : PD} {p : Phase} {c v : ℤ}
    (hlook : dget sts id0 = some st0)
    (hcs : st0.charger.current_limit = some cs0)
    (hs1 : dget sts id = some st1)
    (hd : st1.charger.current_limit = some d)
    (hc : dget d p = some c)
    (hid : id = id0)
    (hget : dget cs0 p = some v) : v = c := by
  rw [← hid] at hlook
  rw [hs1] at hlook
  have hst : st1 = st0 := Option.some.inj hlook
  rw [← hst] at hcs
  rw [hd] at hcs
  have hdc : d = cs0 := Option.some.inj hcs
  rw [← hdc] at hget
  rw [hc] at hget
  exact (Option.some.inj hget).symm

/-- Cut writes on a phase q other than p keep every recorded value for the
tracked charger at most r on p. -/
theorem apply_cuts_val (sts : States) (q p : Phase) (dq tot : ℤ)
    (id : CId) (st1 : ChargerState) (d : PD) (c r : ℤ)
    (hqp : q ≠ p)
    (hs1 : dget sts id = some st1)
    (hd : st1.charger.current_limit = some d)
    (hc : dget d p = some c) (hcr : c ≤ r) :
    ∀ (l : List (CId × ℤ)) (res res' : Result),
      apply_cuts sts q dq tot l res = .ok res' →
      val_bounded id p r res → val_bounded id p r res' := by
  intro l
  induction l with
  | nil =>
    intro res res' h hb
    simp only [apply_cuts] at h
    injection h with h
    subst h
    exact hb
  | cons hd0 rest ih =>
    intro res res' h hb
    obtain ⟨id0, c0⟩ := hd0
    simp only [apply_cuts] at h
    cases hlook : dget sts id0 with
    | none => rw [hlook] at h; cases h
    | some st0 =>
      rw [hlook] at h
      dsimp only at h
      cases hcs : st0.charger.current_limit with
      | none => rw [hcs] at h; cases h
      | some cs0 =>
        rw [hcs] at h
        dsimp only at h
        cases hcp : dget cs0 q with
        | none => rw [hcp] at h; cases h
        | some cp0 =>
          rw [hcp] at h
          dsimp only at h
          cases hre : dget res id0 with
          | none =>
            rw [hre] at h
            dsimp only at h
            rw [dget_dset_self] at h
            dsimp only at h
            have hnew : val_bounded id p r
                (dset (dset res id0 cs0) id0
                  (dset cs0 q (max 0 (cp0 + cut_for dq tot c0)))) := by
              intro nl v hmem hget
              cases mem_dset hmem with
              | inl h2 =>
                cases mem_dset h2 with
                | inl h3 => exact hb nl v h3 hget
                | inr h3 =>
                  rw [h3.2] at hget
                  have hvc := val_of_limit_entry hlook hcs hs1 hd hc h3.1 hget
                  omega
              | inr h2 =>
                rw [h2.2] at hget
                rw [dget_dset_ne _ _ _ _ hqp] at hget
                have hvc := val_of_limit_entry hlook hcs hs1 hd hc h2.1 hget
                omega
            have h2 := ih _ _ h hnew
            exact h2
          | some e0 =>
            rw [hre] at h
            dsimp only at h
            rw [hre] at h
            dsimp only at h
            have hnew : val_bounded id p r
                (dset res id0 (dset e0 q (max 0 (cp0 + cut_for dq tot c0)))) := by
              intro nl v hmem hget
              cases mem_dset hmem with
              | inl h2 => exact hb nl v h2 hget
              | inr h2 =>
                rw [h2.2] at hget
                rw [dget_dset_ne _ _ _ _ hqp] at hget
                have hmm : (id, e0) ∈ res := by
                  rw [h2.1]
                  exact dget_mem hre
                exact hb e0 v hmm hget
            have h2 := ih _ _ h hnew
            exact h2

/-- Increase writes on a phase q other than p keep every recorded value for
the tracked charger at most r on p. -/
theorem apply_increases_val_ne (sts : States) (q p : Phase) (sp tot : ℤ)
    (id : CId) (st1 : ChargerState) (d : PD) (c r : ℤ)
    (hqp : q ≠ p)
    (hs1 : dget sts id = some st1)
    (hd : st1.charger.current_limit = some d)
    (hc : dget d p = some c) (hcr : c ≤ r) :
    ∀ (l : List (CId × ℤ)) (res res' : Result),
      apply_increases sts q sp tot l res = .ok res' →
      val_bounded id p r res → val_bounded id p r res' := by
  intro l
  induction l with
  | nil =>
    intro res res' h hb
    simp only [apply_increases] at h
    injection h with h
    subst h
    exact hb
  | cons hd0 rest ih =>
    intro res res' h hb
    obtain ⟨id0, pot0⟩ := hd0
    simp only [apply_increases] at h
    cases hlook : dget sts id0 with
    | none => rw [hlook] at h; cases h
    | some st0 =>
      rw [hlook] at h
      dsimp only at h
      cases hcs : st0.charger.current_limit with
      | none => rw [hcs] at h; cases h
      | some cs0 =>
        rw [hcs] at h
        dsimp only at h
        cases hcp : dget cs0 q with
        | none => rw [hcp] at h; cases h
        | some cp0 =>
          rw [hcp] at h
          dsimp only at h
          cases hre : dget res id0 with
          | none =>
            rw [hre] at h
            dsimp only at h
            rw [dget_dset_self] at h
            dsimp only at h
            have hnew : val_bounded id p r
                (dset (dset res id0 cs0) id0
                  (dset cs0 q (cp0 + py_int (increase_for sp tot pot0)))) := by
              intro nl v hmem hget
              cases mem_dset hmem with
              | inl h2 =>
                cases mem_dset h2 with
                | inl h3 => exact hb nl v h3 hget
                | inr h3 =>
                  rw [h3.2] at hget
                  have hvc := val_of_limit_entry hlook hcs hs1 hd hc h3.1 hget
                  omega
              | inr h2 =>
                rw [h2.2] at hget
                rw [dget_dset_ne _ _ _ _ hqp] at hget
                have hvc := val_of_limit_entry hlook hcs hs1 hd hc h2.1 hget
                omega
            have h2 := ih _ _ h hnew
            exact h2
          | some e0 =>
            rw [hre] at h
            dsimp only at h
            rw [hre] at h
            dsimp only at h
            have hnew : val_bounded id p r
                (dset res id0 (dset e0 q (cp0 + py_int (increase_for sp tot pot0)))) := by
              intro nl v hmem hget
              cases mem_dset hmem with
              | inl h2 => exact hb nl v h2 hget
              | inr h2 =>
                rw [h2.2] at hget
                rw [dget_dset_ne _ _ _ _ hqp] at hget
                have hmm : (id, e0) ∈ res := by
                  rw [h2.1]
                  exact dget_mem hre
                exact hb e0 v hmm hget
            have h2 := ih _ _ h hnew
            exact h2

/-- Increase writes on p itself keep the tracked charger at most r when every
listed potential for it equals r minus c: the written value is the current c
plus a truncated increase clamped to that potential. -/
theorem apply_increases_val_self (sts : States) (p : Phase) (sp tot : ℤ)
    (id : CId) (st1 : ChargerState) (d : PD) (c r : ℤ)
    (hs1 : dget sts id = some st1)
    (hd : st1.charger.current_limit = some d)
    (hc : dget d p = some c) (hcr : c ≤ r) :
    ∀ (l : List (CId × ℤ)) (res res' : Result),
      (∀ pot, (id, pot) ∈ l → pot = r - c) →
      apply_increases sts p sp tot l res = .ok res' →
      val_bounded id p r res → val_bounded id p r res' := by
  intro l
  induction l with
  | nil =>
    intro res res' _ h hb
    simp only [apply_increases] at h
    injection h with h
    subst h
    exact hb
  | cons hd0 rest ih =>
    intro res res' hpots h hb
    obtain ⟨id0, pot0⟩ := hd0
    simp only [apply_increases] at h
    cases hlook : dget sts id0 with
    | none => rw [hlook] at h; cases h
    | some st0 =>
      rw [hlook] at h
      dsimp only at h
      cases hcs : st0.charger.current_limit with
      | none => rw [hcs] at h; cases h
      | some cs0 =>
        rw [hcs] at h
        dsimp only at h
        cases hcp : dget cs0 p with
        | none => rw [hcp] at h; cases h
        | some cp0 =>
          rw [hcp] at h
          dsimp only at h
          cases hre : dget res id0 with
          | none =>
            rw [hre] at h
            dsimp only at h
            rw [dget_dset_self] at h
            dsimp only at h
            have hnew : val_bounded id p r
                (dset (dset res id0 cs0) id0
                  (dset cs0 p (cp0 + py_int (increase_for sp tot pot0)))) := by
              intro nl v hmem hget
              cases mem_dset hmem with
              | inl h2 =>
                cases mem_dset h2 with
                | inl h3 => exact hb nl v h3 hget
                | inr h3 =>
                  rw [h3.2] at hget
                  have hvc := val_of_limit_entry hlook hcs hs1 hd hc h3.1 hget
                  omega
              | inr h2 =>
                rw [h2.2] at hget
                rw [dget_dset_self] at hget
                have hv := Option.some.inj hget
                have hvc := val_of_limit_entry hlook hcs hs1 hd hc h2.1 hcp
                have hpot := hpots pot0 (by rw [h2.1]; exact List.mem_cons_self _ _)
                rw [hpot] at hv
                have hple : py_int (increase_for sp tot (r - c)) ≤ r - c :=
                  py_int_le_int _ _ (by omega) (increase_for_le sp tot (r - c))
                omega
            have h2 := ih _ _ (fun pot hp => hpots pot (List.mem_cons_of_mem _ hp)) h hnew
            exact h2
          | some e0 =>
            rw [hre] at h
            dsimp only at h
            rw [hre] at h
            dsimp only at h
            have hnew : val_bounded id p r
                (dset res id0 (dset e0 p (cp0 + py_int (increase_for sp tot pot0)))) := by
              intro nl v hmem hget
              cases mem_dset hmem with
              | inl h2 => exact hb nl v h2 hget
              | inr h2 =>
                rw [h2.2] at hget
                rw [dget_dset_self] at hget
                have hv := Option.some.inj hget
                have hvc := val_of_limit_entry hlook hcs hs1 hd hc h2.1 hcp
                have hpot := hpots pot0 (by rw [h2.1]; exact List.mem_cons_self _ _)
                rw [hpot] at hv
                have hple : py_int (increase_for sp tot (r - c)) ≤ r - c :=
                  py_int_le_int _ _ (by omega) (increase_for_le sp tot (r - c))
                omega
            have h2 := ih _ _ (fun pot hp => hpots pot (List.mem_cons_of_mem _ hp)) h hnew
            exact h2

/-- _distribute_cuts on a phase other than p preserves the bound. -/
theorem distribute_cuts_val (sts : States) (q p : Phase) (dq : ℤ)
    (id : CId) (st1 : ChargerState) (d : PD) (c r : ℤ)
    (hqp : q ≠ p)
    (hs1 : dget sts id = some st1)
    (hd : st1.charger.current_limit = some d)
    (hc : dget d p = some c) (hcr : c ≤ r)
    (res res' : Result)
    (h : distribute_cuts sts q dq res = .ok res')
    (hb : val_bounded id p r res) : val_bounded id p r res' := by
  simp only [distribute_cuts, bind, Except.bind] at h
  cases hcol : collect_phase_currents q (active_chargers sts) with
  | error e => rw [hcol] at h; cases h
  | ok l =>
    rw [hcol] at h
    dsimp only at h
    by_cases htot : sumSnd l = 0
    · rw [if_pos htot] at h
      injection h with h
      subst h
      exact hb
    · rw [if_neg htot] at h
      exact apply_cuts_val sts q p dq (sumSnd l) id st1 d c r hqp hs1 hd hc hcr
        l res res' h hb

/-- _distribute_increases preserves the bound on p: on another phase the write
misses p, and on p itself the tracked potential is exactly r minus c. -/
theorem distribute_increases_val (sts : States) (q p : Phase) (sp : ℤ)
    (id : CId) (st1 : ChargerState) (d rq : PD) (c r : ℤ)
    (hnd : (sts.map Prod.fst).Nodup)
    (hs1 : dget sts id = some st1)
    (hcl : truthyD st1.charger.current_limit = some d)
    (hrq : truthyD st1.requested_current = some rq)
    (hc : dget d p = some c) (hr : dget rq p = some r) (hcr : c ≤ r)
    (res res' : Result)
    (h : distribute_increases sts q sp res = .ok res')
    (hb : val_bounded id p r res) : val_bounded id p r res' := by
  have hd : st1.charger.current_limit = some d := truthyD_eq_some hcl
  simp only [distribute_increases, bind, Except.bind] at h
  cases hcol : collect_potentials q (active_chargers sts) with
  | error e => rw [hcol] at h; cases h
  | ok l =>
    rw [hcol] at h
    dsimp only at h
    by_cases htot : sumSnd l = 0
    · rw [if_pos htot] at h
      injection h with h
      subst h
      exact hb
    · rw [if_neg htot] at h
      by_cases hqp : q = p
      · subst hqp
        have hpots : ∀ pot, (id, pot) ∈ l → pot = r - c := by
          intro pot hp
          obtain ⟨s2, d2, rq2, c2, r2, hmem, hcl2, hrq2, hc2, hr2, hpe⟩ :=
            collect_potentials_val q (active_chargers sts) l hcol id pot hp
          have hmem2 : (id, s2) ∈ sts := (List.mem_filter.mp hmem).1
          have hgs : dget sts id = some s2 := dget_of_mem_nodup hmem2 hnd
          rw [hs1] at hgs
          have hss : st1 = s2 := Option.some.inj hgs
          rw [← hss] at hcl2 hrq2
          rw [hcl] at hcl2
          rw [hrq] at hrq2
          have hde : d = d2 := Option.some.inj hcl2
          have hrqe : rq = rq2 := Option.some.inj hrq2
          rw [← hde] at hc2
          rw [← hrqe] at hr2
          rw [hc] at hc2
          rw [hr] at hr2
          have hce := Option.some.inj hc2
          have hre := Option.some.inj hr2
          omega
        exact apply_increases_val_self sts q sp (sumSnd l) id st1 d c r hs1 hd hc hcr
          l res res' hpots h hb
      · exact apply_increases_val_ne sts q p sp (sumSnd l) id st1 d c r hqp hs1 hd hc hcr
          l res res' h hb

/-- The per-phase allocation loop preserves the bound on p whenever no deficit
phase of the availability map equals p. -/
theorem allocate_current_val (sts : States) (p : Phase)
    (id : CId) (st1 : ChargerState) (d rq : PD) (c r : ℤ)
    (hnd : (sts.map Prod.fst).Nodup)
    (hs1 : dget sts id = some st1)
    (hcl : truthyD st1.charger.current_limit = some d)
    (hrq : truthyD st1.requested_current = some rq)
    (hc : dget d p = some c) (hr : dget rq p = some r) (hcr : c ≤ r) :
    ∀ (items : List (Phase × ℤ)) (res res' : Result),
      (∀ q aq, (q, aq) ∈ items → aq < 0 → q ≠ p) →
      allocate_current sts items res = .ok res' →
      val_bounded id p r res → val_bounded id p r res' := by
  intro items
  induction items with
  | nil =>
    intro res res' _ h hb
    simp only [allocate_current] at h
    injection h with h
    subst h
    exact hb
  | cons hd0 rest ih =>
    intro res res' hcut h hb
    obtain ⟨q, aq⟩ := hd0
    simp only [allocate_current, bind, Except.bind] at h
    by_cases hneg : aq < 0
    · rw [if_pos hneg] at h
      cases hdist : distribute_cuts sts q aq res with
      | error e => rw [hdist] at h; cases h
      | ok res1 =>
        rw [hdist] at h
        dsimp only at h
        have hqp : q ≠ p := hcut q aq (List.mem_cons_self _ _) hneg
        have hb1 := distribute_cuts_val sts q p aq id st1 d c r hqp hs1
          (truthyD_eq_some hcl) hc hcr res res1 hdist hb
        have h2 := ih res1 res'
          (fun q2 a2 hm2 ha2 => hcut q2 a2 (List.mem_cons_of_mem _ hm2) ha2) h hb1
        exact h2
    · rw [if_neg hneg] at h
      by_cases hpos : aq > 0
      · rw [if_pos hpos] at h
        cases hdist : distribute_increases sts q aq res with
        | error e => rw [hdist] at h; cases h
        | ok res1 =>
          rw [hdist] at h
          dsimp only at h
          have hb1 := distribute_increases_val sts q p aq id st1 d rq c r hnd hs1
            hcl hrq hc hr hcr res res1 hdist hb
          have h2 := ih res1 res'
            (fun q2 a2 hm2 ha2 => hcut q2 a2 (List.mem_cons_of_mem _ hm2) ha2) h hb1
          exact h2
      · rw [if_neg hpos] at h
        have h2 := ih res res'
          (fun q2 a2 hm2 ha2 => hcut q2 a2 (List.mem_cons_of_mem _ hm2) ha2) h hb
        exact h2

/-- The result pass only filters and re-states entries of the allocation: every
returned result entry is an allocation entry. -/
theorem apply_results_sub (now : ℚ) : ∀ (alloc : Result) (sts : States)
    (res : Result) (s_out : States),
    apply_results now alloc sts = .ok (res, s_out) → ∀ e ∈ res, e ∈ alloc := by
  intro alloc
  induction alloc with
  | nil =>
    intro sts res s_out h e he
    simp only [apply_results] at h
    cases h
    simp at he
  | cons hd0 rest ih =>
    intro sts res s_out h e he
    obtain ⟨id0, nl0⟩ := hd0
    simp only [apply_results] at h
    cases hst : dget sts id0 with
    | none => rw [hst] at h; cases h
    | some st0 =>
      rw [hst] at h
      dsimp only at h
      cases hcs : truthyD st0.charger.current_limit with
      | none =>
        rw [hcs] at h
        dsimp only at h
        exact List.mem_cons_of_mem _ (ih sts res s_out h e he)
      | some cs0 =>
        rw [hcs] at h
        dsimp only at h
        cases hhc : has_changes_for st0 cs0 nl0 with
        | error e2 =>
          rw [hhc] at h
          simp [bind, Except.bind] at h
        | ok b =>
          rw [hhc] at h
          simp only [bind, Except.bind] at h
          cases b with
          | false =>
            simp only [Bool.false_eq_true, if_false] at h
            exact List.mem_cons_of_mem _ (ih sts res s_out h e he)
          | true =>
            simp only [if_true] at h
            split at h
            · cases h
            · rename_i v hrec
              obtain ⟨r1, s1⟩ := v
              simp only [Except.ok.injEq, Prod.mk.injEq] at h
              obtain ⟨h1, -⟩ := h
              rw [← h1] at he
              cases he with
              | head => exact List.mem_cons_self _ _
              | tail _ ht =>
                exact List.mem_cons_of_mem _ (ih _ _ _ hrec e ht)

/-- C4: for a recovery phase of a call to update_allocation, no charger is
pushed above its own requested_current on that phase.  Hypotheses: the registry
and availability keys are unique, the charger is active with detect_manual_override
returning st1 whose truthy reported-limit and requested dicts bind the phase with
current c at most request r (the allocator's reachable-state invariant), the
phase carries a surplus, and the call returns a limits dict for the charger
binding the phase to v.  Then v is at most r: the increase is
min(surplus * potential / total, potential) with potential = r - c, truncated,
so the new setpoint never exceeds the charger's own request. -/
theorem c4_new_setpoint_capped (states : States) (avail : List (Phase × ℤ))
    (now : ℚ) (id : CId) (p : Phase) (a : ℤ) (st st1 : ChargerState) (b : Bool)
    (d rq : PD) (c r : ℤ) (res : Result) (s_out : States) (nl : PD) (v : ℤ)
    (hndS : (states.map Prod.fst).Nodup)
    (hndA : (avail.map Prod.fst).Nodup)
    (hst : dget states id = some st)
    (hcc : st.charger.can_charge = true)
    (hdet : detect_manual_override st = .ok (st1, b))
    (hcl : truthyD st1.charger.current_limit = some d)
    (hrq : truthyD st1.requested_current = some rq)
    (hc : dget d p = some c)
    (hr : dget rq p = some r)
    (hcr : c ≤ r)
    (ha : (p, a) ∈ avail) (hap : 0 < a)
    (hupd : update_allocation states avail now = .ok (res, s_out))
    (hnl : dget res id = some nl)
    (hv : dget nl p = some v) :
    v ≤ r := by
  unfold update_allocation at hupd
  by_cases hact : active_chargers states = []
  · rw [if_pos hact] at hupd
    simp only [Except.ok.injEq, Prod.mk.injEq] at hupd
    rw [← hupd.1] at hnl
    simp [dget] at hnl
  · rw [if_neg hact] at hupd
    simp only [bind, Except.bind] at hupd
    cases hdp : detect_pass states with
    | error e => rw [hdp] at hupd; cases hupd
    | ok s1 =>
      rw [hdp] at hupd
      dsimp only at hupd
      cases hal : allocate_current s1 avail [] with
      | error e => rw [hal] at hupd; cases hupd
      | ok alloc =>
        rw [hal] at hupd
        dsimp only at hupd
        have hs1 : dget s1 id = some st1 :=
          detect_pass_dget states s1 hdp id st st1 b hst hcc hdet
        have hnd1 : (s1.map Prod.fst).Nodup := by
          rw [detect_pass_keys states s1 hdp]
          exact hndS
        have hcut : ∀ q aq, (q, aq) ∈ avail → aq < 0 → q ≠ p := by
          intro q aq hm hneg he
          subst he
          have h1 : dget avail q = some aq := dget_of_mem_nodup hm hndA
          have h2 : dget avail q = some a := dget_of_mem_nodup ha hndA
          rw [h1] at h2
          have h3 := Option.some.inj h2
          omega
        have hvb : val_bounded id p r alloc :=
          allocate_current_val s1 p id st1 d rq c r hnd1 hs1 hcl hrq hc hr hcr
            avail [] alloc hcut hal (by intro nl0 v0 hm0 hg0; simp at hm0)
        have hsub : (id, nl) ∈ alloc :=
          apply_results_sub now alloc s1 res s_out hupd (id, nl) (dget_mem hnl)
        exact hvb nl v hsub hv

/-- Witness for C4: a charger cut to 7 A on L1 with request 16 A sees a 5 A
surplus; the call raises it to 12, which the theorem bounds by its request. -/
theorem c4_new_setpoint_capped_witness : (12 : ℤ) ≤ 16 :=
  c4_new_setpoint_capped [(1, c4Charger)] [(Phase.l1, 5)] 0 1 Phase.l1 5
    c4Charger c4Charger false [(Phase.l1, 7)] [(Phase.l1, 16)] 7 16
    [(1, [(Phase.l1, 12)])]
    [(1, ⟨⟨some [(Phase.l1, 7)], true, false⟩, some [(Phase.l1, 16)],
      some [(Phase.l1, 12)], 0, false⟩)]
    [(Phase.l1, 12)] 12
    (by decide) (by decide) (by decide) (by decide) (by decide) (by decide)
    (by decide) (by decide) (by decide) (by decide) (by decide) (by decide)
    (by norm_num [update_allocation, active_chargers, c4Charger, detect_pass,
      detect_manual_override, truthyD, any_current_differs, dget, dset,
      allocate_current, distribute_cuts, collect_phase_currents, apply_cuts,
      cut_for, sumSnd, distribute_increases, collect_potentials, apply_increases,
      increase_for, apply_results, has_changes_for, any_limit_differs,
      Except.map, Except.bind, bind, pure, Except.pure, py_int, min_def,
      List.filter, List.cons_ne_nil, List.sum_cons, List.sum_nil])
    (by decide) (by decide)


end EvseLB
